import Mathlib

/-!
Verification of the line-diff engine of `internal/diff/diff.go` (package `diff`
of the shutter repository).  The file `diff.go` holds two variants of the
engine: the Ratcliff-Obershelp sequence matcher (embedded below in namespace
`Shutter.diff`) and a Wagner-Fischer edit-distance variant (namespace
`Shutter.diffwf`).  All Go functions are embedded as executable Lean
definitions; Go `map` values are modelled as functions with the zero-value
default, Go slices as lists, and the one genuinely recursive procedure
(`matchBlocks` inside `getMatchingBlocks`) is given an explicit fuel parameter
together with a sufficiency theorem.
-/

namespace Shutter

namespace diff

/-- `type DiffKind int` with the three constants `DiffShared`, `DiffOld`,
`DiffNew`. -/
inductive DiffKind where
  | DiffShared : DiffKind
  | DiffOld : DiffKind
  | DiffNew : DiffKind
  deriving DecidableEq, Repr

export DiffKind (DiffShared DiffOld DiffNew)

/-- `type DiffLine struct { OldNumber int; NewNumber int; Line string; Kind DiffKind }`.
Absent numbers are the Go zero value `0`. -/
structure DiffLine where
  OldNumber : Nat
  NewNumber : Nat
  Line : String
  Kind : DiffKind
  deriving DecidableEq, Repr

/-- Opcode tag `opEqual` (= 0). -/
def opEqual : Nat := 0

/-- Opcode tag `opInsert` (= 1). -/
def opInsert : Nat := 1

/-- Opcode tag `opDelete` (= 2). -/
def opDelete : Nat := 2

/-- Opcode tag `opReplace` (= 3). -/
def opReplace : Nat := 3

/-- `type match struct { A, B, Size int }` (`match` is a Lean keyword, hence
the name `MatchT`). -/
structure MatchT where
  A : Nat
  B : Nat
  Size : Nat
  deriving DecidableEq, Repr

/-- `type opCode struct { Tag int8; I1, I2, J1, J2 int }`. -/
structure opCode where
  Tag : Nat
  I1 : Nat
  I2 : Nat
  J1 : Nat
  J2 : Nat
  deriving DecidableEq, Repr

/-- The matcher state set up by `newMatcher`/`setSeqs`.  The fields
`b2j`, `bJunk`, `bPopular` computed by `chainB` are derived definitions
below. -/
structure sequenceMatcher where
  a : List String
  b : List String
  IsJunk : Option (String → Bool)
  autoJunk : Bool

/-- `newMatcher(a, b)`: `autoJunk` is `true` and no junk predicate is set. -/
def newMatcher (a b : List String) : sequenceMatcher :=
  { a := a, b := b, IsJunk := none, autoJunk := true }

/-- The index-building loop of `chainB`:
`for i, elt := range m.b { b2j[elt] = append(b2j[elt], i) }`,
with the Go map modelled as a function with default `[]` and the running
index `i` made explicit. -/
def b2jLoop : Nat → List String → (String → List Nat) → (String → List Nat)
  | _, [], m => m
  | i, elt :: rest, m =>
      b2jLoop (i + 1) rest (fun v => if v = elt then m elt ++ [i] else m v)

/-- The raw `b2j` index before junk/popular purging. -/
def b2jRaw (b : List String) : String → List Nat :=
  b2jLoop 0 b (fun _ => [])

/-- Membership of `elt` in the junk set `m.bJunk` built by `chainB`: keys of
the raw index (values occurring in `b`) on which `IsJunk` holds. -/
def bJunk (m : sequenceMatcher) (v : String) : Bool :=
  match m.IsJunk with
  | none => false
  | some f => !(b2jRaw m.b v).isEmpty && f v

/-- `isBJunk`. -/
def isBJunk (m : sequenceMatcher) (v : String) : Bool :=
  bJunk m v

/-- The index after the junk purge (`delete(b2j, elt)` for junk keys). -/
def b2jAfterJunk (m : sequenceMatcher) (v : String) : List Nat :=
  if bJunk m v then [] else b2jRaw m.b v

/-- Membership of `v` in `m.bPopular`: with `autoJunk` and `n >= 200`, keys
whose index list is longer than `ntest = n/100 + 1`. -/
def bPopular (m : sequenceMatcher) (v : String) : Bool :=
  m.autoJunk && decide (200 ≤ m.b.length) &&
    decide (m.b.length / 100 + 1 < (b2jAfterJunk m v).length)

/-- The final `m.b2j` index produced by `chainB`, after the popular purge
(`delete(b2j, s)` for popular keys). -/
def b2j (m : sequenceMatcher) (v : String) : List Nat :=
  if bPopular m v then [] else b2jAfterJunk m v

/-- Inner loop of `findLongestMatch` over the candidate list `m.b2j[m.a[i]]`:
`continue` on `j < blo`, `break` on `j >= bhi`, otherwise
`k := j2len[j-1] + 1; newj2len[j] = k` and a strict best update.
`j2len` has `int` keys in Go (the lookup `j2len[j-1]` may probe key `-1`),
hence the `Int`-keyed map.  `i-k+1`/`j-k+1` are written `i+1-k`/`j+1-k`;
the run length `k` never exceeds `i+1` or `j+1` on states reachable from
the empty map, so Nat truncation agrees with Go int arithmetic there. -/
def innerLoop (blo bhi i : Nat) :
    List Nat → (Int → Nat) → (Int → Nat) → MatchT → ((Int → Nat) × MatchT)
  | [], _, newj2len, best => (newj2len, best)
  | j :: js, j2len, newj2len, best =>
      if j < blo then innerLoop blo bhi i js j2len newj2len best
      else if bhi ≤ j then (newj2len, best)
      else
        let k := j2len ((j : Int) - 1) + 1
        let newj2len' : Int → Nat := fun x => if x = (j : Int) then k else newj2len x
        if best.Size < k then
          innerLoop blo bhi i js j2len newj2len' ⟨i + 1 - k, j + 1 - k, k⟩
        else
          innerLoop blo bhi i js j2len newj2len' best

/-- Outer loop of the junk-free scan: `for i := alo; i != ahi; i++`, with the
row counter made explicit (`cnt = ahi - alo` iterations).  Each row starts a
fresh `newj2len` map. -/
def scanRows (m : sequenceMatcher) (blo bhi : Nat) :
    Nat → Nat → (Int → Nat) → MatchT → MatchT
  | _, 0, _, best => best
  | i, cnt + 1, j2len, best =>
      let r := innerLoop blo bhi i (b2j m (m.a.getD i "")) j2len (fun _ => 0) best
      scanRows m blo bhi (i + 1) cnt r.1 r.2

/-- First extension loop: extend the best match backwards through non-junk
equal elements.  Structural recursion on `besti` (the loop decrements it). -/
def extendNonJunkBack (m : sequenceMatcher) (alo blo : Nat) :
    Nat → Nat → Nat → MatchT
  | 0, bestj, bestsize => ⟨0, bestj, bestsize⟩
  | besti + 1, bestj, bestsize =>
      if alo < besti + 1 ∧ blo < bestj ∧
          isBJunk m (m.b.getD (bestj - 1) "") = false ∧
          m.a.getD besti "" = m.b.getD (bestj - 1) "" then
        extendNonJunkBack m alo blo besti (bestj - 1) (bestsize + 1)
      else ⟨besti + 1, bestj, bestsize⟩

/-- Second extension loop: extend forwards through non-junk equal elements;
only `bestsize` changes.  The fuel is `ahi - (besti + bestsize)` at the call
site, which makes the fuel-0 branch coincide with the failing loop guard. -/
def extendNonJunkFwd (m : sequenceMatcher) (ahi bhi besti bestj : Nat) :
    Nat → Nat → Nat
  | 0, bestsize => bestsize
  | fuel + 1, bestsize =>
      if besti + bestsize < ahi ∧ bestj + bestsize < bhi ∧
          isBJunk m (m.b.getD (bestj + bestsize) "") = false ∧
          m.a.getD (besti + bestsize) "" = m.b.getD (bestj + bestsize) "" then
        extendNonJunkFwd m ahi bhi besti bestj fuel (bestsize + 1)
      else bestsize

/-- Third extension loop: suck up junk on the left. -/
def extendJunkBack (m : sequenceMatcher) (alo blo : Nat) :
    Nat → Nat → Nat → MatchT
  | 0, bestj, bestsize => ⟨0, bestj, bestsize⟩
  | besti + 1, bestj, bestsize =>
      if alo < besti + 1 ∧ blo < bestj ∧
          isBJunk m (m.b.getD (bestj - 1) "") = true ∧
          m.a.getD besti "" = m.b.getD (bestj - 1) "" then
        extendJunkBack m alo blo besti (bestj - 1) (bestsize + 1)
      else ⟨besti + 1, bestj, bestsize⟩

/-- Fourth extension loop: suck up junk on the right. -/
def extendJunkFwd (m : sequenceMatcher) (ahi bhi besti bestj : Nat) :
    Nat → Nat → Nat
  | 0, bestsize => bestsize
  | fuel + 1, bestsize =>
      if besti + bestsize < ahi ∧ bestj + bestsize < bhi ∧
          isBJunk m (m.b.getD (bestj + bestsize) "") = true ∧
          m.a.getD (besti + bestsize) "" = m.b.getD (bestj + bestsize) "" then
        extendJunkFwd m ahi bhi besti bestj fuel (bestsize + 1)
      else bestsize

/-- `findLongestMatch(alo, ahi, blo, bhi)`: junk-free scan, then the four
extension loops, in source order. -/
def findLongestMatch (m : sequenceMatcher) (alo ahi blo bhi : Nat) : MatchT :=
  let best1 := scanRows m blo bhi alo (ahi - alo) (fun _ => 0) ⟨alo, blo, 0⟩
  let e1 := extendNonJunkBack m alo blo best1.A best1.B best1.Size
  let s2 := extendNonJunkFwd m ahi bhi e1.A e1.B (ahi - (e1.A + e1.Size)) e1.Size
  let e3 := extendJunkBack m alo blo e1.A e1.B s2
  let s4 := extendJunkFwd m ahi bhi e3.A e3.B (ahi - (e3.A + e3.Size)) e3.Size
  ⟨e3.A, e3.B, s4⟩

/-- The recursive closure `matchBlocks` inside `getMatchingBlocks`, with an
explicit fuel parameter for the unbounded divide-and-conquer recursion
(`none` = fuel exhausted; `matchBlocksF_spec` below shows fuel
`(ahi-alo)+(bhi-blo)+1` always suffices). -/
def matchBlocksF (m : sequenceMatcher) :
    Nat → Nat → Nat → Nat → Nat → List MatchT → Option (List MatchT)
  | 0, _, _, _, _, _ => none
  | fuel + 1, alo, ahi, blo, bhi, matched =>
      let mt := findLongestMatch m alo ahi blo bhi
      if 0 < mt.Size then
        (if alo < mt.A ∧ blo < mt.B then
            matchBlocksF m fuel alo mt.A blo mt.B matched
          else some matched).bind (fun left =>
          if mt.A + mt.Size < ahi ∧ mt.B + mt.Size < bhi then
            matchBlocksF m fuel (mt.A + mt.Size) ahi (mt.B + mt.Size) bhi (left ++ [mt])
          else some (left ++ [mt]))
      else some matched

/-- The "collapse adjacent equal blocks" loop of `getMatchingBlocks`, with the
pending block `(i1, j1, k1)` as accumulator (initially `(0,0,0)`). -/
def collapseLoop : List MatchT → MatchT → List MatchT
  | [], acc => if 0 < acc.Size then [acc] else []
  | bl :: bs, acc =>
      if acc.A + acc.Size = bl.A ∧ acc.B + acc.Size = bl.B then
        collapseLoop bs ⟨acc.A, acc.B, acc.Size + bl.Size⟩
      else if 0 < acc.Size then
        ⟨acc.A, acc.B, acc.Size⟩ :: collapseLoop bs bl
      else collapseLoop bs bl

/-- `getMatchingBlocks`: run `matchBlocks` on the full ranges, collapse
adjacent blocks, and append the terminal sentinel
`(len(m.a), len(m.b), 0)`. -/
def getMatchingBlocks (m : sequenceMatcher) : List MatchT :=
  let matched :=
    (matchBlocksF m (m.a.length + m.b.length + 1) 0 m.a.length 0 m.b.length []).getD []
  collapseLoop matched ⟨0, 0, 0⟩ ++ [⟨m.a.length, m.b.length, 0⟩]

/-- The opcode-generation loop of `getOpCodes`, walking the matching blocks
with the cursor `(i, j)` (initially `(0,0)`). -/
def opLoop : List MatchT → Nat → Nat → List opCode
  | [], _, _ => []
  | bl :: bs, i, j =>
      let tag : Nat :=
        if i < bl.A ∧ j < bl.B then opReplace
        else if i < bl.A then opDelete
        else if j < bl.B then opInsert
        else 0
      (if 0 < tag then [⟨tag, i, bl.A, j, bl.B⟩] else []) ++
        (if 0 < bl.Size then
          [⟨opEqual, bl.A, bl.A + bl.Size, bl.B, bl.B + bl.Size⟩] else []) ++
        opLoop bs (bl.A + bl.Size) (bl.B + bl.Size)

/-- `getOpCodes`. -/
def getOpCodes (m : sequenceMatcher) : List opCode :=
  opLoop (getMatchingBlocks m) 0 0

/-- One arm of the `switch op.Tag` in `Histogram`; a Go
`for i := op.I1; i < op.I2; i++` loop is `List.range' op.I1 (op.I2 - op.I1)`.
The Shared new number is `newIdx + 1` with `newIdx = i + (op.J1 - op.I1)`,
written `i + op.J1 - op.I1` so that Nat subtraction agrees with the Go int
expression whenever `op.I1 ≤ i` (always the case in the loop). -/
def processOp (oldLines newLines : List String) (op : opCode) : List DiffLine :=
  if op.Tag = opEqual then
    (List.range' op.I1 (op.I2 - op.I1)).map (fun i =>
      { OldNumber := i + 1, NewNumber := i + op.J1 - op.I1 + 1,
        Line := oldLines.getD i "", Kind := DiffShared })
  else if op.Tag = opDelete then
    (List.range' op.I1 (op.I2 - op.I1)).map (fun i =>
      { OldNumber := i + 1, NewNumber := 0,
        Line := oldLines.getD i "", Kind := DiffOld })
  else if op.Tag = opInsert then
    (List.range' op.J1 (op.J2 - op.J1)).map (fun j =>
      { OldNumber := 0, NewNumber := j + 1,
        Line := newLines.getD j "", Kind := DiffNew })
  else
    (List.range' op.I1 (op.I2 - op.I1)).map (fun i =>
      { OldNumber := i + 1, NewNumber := 0,
        Line := oldLines.getD i "", Kind := DiffOld }) ++
    (List.range' op.J1 (op.J2 - op.J1)).map (fun j =>
      { OldNumber := 0, NewNumber := j + 1,
        Line := newLines.getD j "", Kind := DiffNew })

/-- The character loop of `splitLinesKeepNewline`: push `current` on a
newline, otherwise grow `current`; afterwards append a non-empty final
`current`. -/
def splitGo : List Char → List String → String → List String
  | [], lines, current => if current ≠ "" then lines ++ [current] else lines
  | c :: cs, lines, current =>
      if c = '\n' then splitGo cs (lines ++ [current]) ""
      else splitGo cs lines (current.push c)

/-- `splitLinesKeepNewline`. -/
def splitLinesKeepNewline (s : String) : List String :=
  splitGo s.data [] ""

/-- `splitLines`. -/
def splitLines (s : String) : List String :=
  if s = "" then [] else splitLinesKeepNewline s

/-- `Histogram(old, new)`: split, match, generate opcodes, render.  The
append-only `result` loop over opcodes is the concatenation of the per-opcode
renderings. -/
def Histogram (old new : String) : List DiffLine :=
  let oldLines := splitLines old
  let newLines := splitLines new
  let matcher := newMatcher oldLines newLines
  ((getOpCodes matcher).map (processOp oldLines newLines)).flatten

end diff

namespace diffwf

/-! The Wagner-Fischer variant of the engine (the second copy of `diff.go`
in the corpus): `DiffLine` carries a single running `Number`, `Histogram`
computes the full edit-distance matrix and walks it backwards. -/

/-- `DiffKind` of the Wagner-Fischer copy. -/
inductive DiffKind where
  | DiffShared : DiffKind
  | DiffOld : DiffKind
  | DiffNew : DiffKind
  deriving DecidableEq, Repr

/-- `type DiffLine struct { Number int; Line string; Kind DiffKind }`. -/
structure DiffLine where
  Number : Nat
  Line : String
  Kind : DiffKind
  deriving DecidableEq, Repr

/-- `minThree`. -/
def minThree (a b c : Nat) : Nat :=
  if a < b then (if a < c then a else c)
  else if b < c then b else c

/-- `strings.Split(s, "\n")`: every `\n` is a separator; the empty string
yields `[""]`. -/
def splitNLGo : List Char → String → List String
  | [], current => [current]
  | c :: cs, current =>
      if c = '\n' then current :: splitNLGo cs ""
      else splitNLGo cs (current.push c)

/-- `strings.Split(old, "\n")` as used by the Wagner-Fischer `Histogram`. -/
def splitNL (s : String) : List String :=
  splitNLGo s.data ""

/-- The inner column loop of `computeEditDistance` producing the cells
`matrix[i][1..n]` of one row: `diag` is `matrix[i-1][j-1]`, `left` the cell
just written, `prev` the suffix `matrix[i-1][j..]`. -/
def edRowGo (aLine : String) : List String → List Nat → Nat → Nat → List Nat
  | [], _, _, _ => []
  | bj :: bs, prev, diag, left =>
      let up := prev.headD 0
      let cell := if aLine = bj then diag else 1 + minThree up left diag
      cell :: edRowGo aLine bs prev.tail up cell

/-- The outer row loop of `computeEditDistance`; `prev` is the finished row
`i-1`, rows are built top-down starting from row `0 = [0,1,...,n]`. -/
def edRows (new : List String) : List String → Nat → List Nat → List (List Nat)
  | [], _, _ => []
  | aLine :: as_, i, prev =>
      let row := i :: edRowGo aLine new prev.tail (prev.headD 0) i
      row :: edRows new as_ (i + 1) row

/-- `computeEditDistance(old, new)`: the `(m+1) × (n+1)` matrix with
`matrix[i][0] = i`, `matrix[0][j] = j`, and the Levenshtein recurrence
filled row by row. -/
def computeEditDistance (old new : List String) : List (List Nat) :=
  let row0 := List.range (new.length + 1)
  row0 :: edRows new old 1 row0

/-- Matrix cell access `matrix[i][j]`. -/
def mcell (matrix : List (List Nat)) (i j : Nat) : Nat :=
  (matrix.getD i []).getD j 0

/-- The traceback loop, in emission order reversed (the Go loop prepends each
emitted line, so the line emitted at `(i, j)` is appended after the lines
emitted at smaller indices).  Fuel `i + j` suffices: every branch decreases
`i + j`, and at fuel 0 with the call-site fuel the guard `i > 0 || j > 0`
has failed. -/
def tracebackGo (old new : List String) (matrix : List (List Nat)) :
    Nat → Nat → Nat → List DiffLine
  | 0, _, _ => []
  | fuel + 1, i, j =>
      if i = 0 ∧ j = 0 then []
      else if 0 < i ∧ 0 < j ∧ old.getD (i - 1) "" = new.getD (j - 1) "" then
        tracebackGo old new matrix fuel (i - 1) (j - 1) ++
          [{ Number := 0, Line := old.getD (i - 1) "", Kind := DiffKind.DiffShared }]
      else if 0 < j ∧ (i = 0 ∨ mcell matrix i (j - 1) < mcell matrix (i - 1) j) then
        tracebackGo old new matrix fuel i (j - 1) ++
          [{ Number := 0, Line := new.getD (j - 1) "", Kind := DiffKind.DiffNew }]
      else if 0 < i then
        tracebackGo old new matrix fuel (i - 1) j ++
          [{ Number := 0, Line := old.getD (i - 1) "", Kind := DiffKind.DiffOld }]
      else
        tracebackGo old new matrix fuel i (j - 1) ++
          [{ Number := 0, Line := new.getD (j - 1) "", Kind := DiffKind.DiffNew }]

/-- `traceback(old, new, matrix)` including the final renumbering pass
`result[idx].Number = idx + 1`. -/
def traceback (old new : List String) (matrix : List (List Nat)) : List DiffLine :=
  let result := tracebackGo old new matrix (old.length + new.length) old.length new.length
  result.enum.map (fun p => { p.2 with Number := p.1 + 1 })

/-- The Wagner-Fischer `Histogram`. -/
def Histogram (old new : String) : List DiffLine :=
  let oldLines0 := splitNL old
  let newLines0 := splitNL new
  let oldLines := if oldLines0.length = 1 ∧ oldLines0.getD 0 "" = "" then [] else oldLines0
  let newLines := if newLines0.length = 1 ∧ newLines0.getD 0 "" = "" then [] else newLines0
  traceback oldLines newLines (computeEditDistance oldLines newLines)

end diffwf

namespace diff

/-! ### Lemmas about the line splitter -/

/-- Proof-side description of the internal state (accumulated lines, current
line) of the `splitLinesKeepNewline` character loop after consuming a prefix
of the input. -/
def stateGo : List Char → List String → String → (List String × String)
  | [], lines, current => (lines, current)
  | c :: cs, lines, current =>
      if c = '\n' then stateGo cs (lines ++ [current]) ""
      else stateGo cs lines (current.push c)

theorem splitGo_eq_stateGo (cs : List Char) : ∀ lines current,
    splitGo cs lines current =
      (stateGo cs lines current).1 ++
        (if (stateGo cs lines current).2 ≠ "" then [(stateGo cs lines current).2]
         else []) := by
  induction cs with
  | nil =>
      intro lines current
      simp only [splitGo, stateGo]
      split <;> simp_all
  | cons c cs ih =>
      intro lines current
      simp only [splitGo, stateGo]
      split <;> apply ih

theorem stateGo_append (xs ys : List Char) : ∀ lines current,
    stateGo (xs ++ ys) lines current =
      stateGo ys (stateGo xs lines current).1 (stateGo xs lines current).2 := by
  induction xs with
  | nil => intro lines current; simp [stateGo]
  | cons c cs ih =>
      intro lines current
      simp only [List.cons_append, stateGo]
      split <;> apply ih

theorem stateGo_acc (cs : List Char) : ∀ lines current,
    stateGo cs lines current =
      (lines ++ (stateGo cs [] current).1, (stateGo cs [] current).2) := by
  induction cs with
  | nil => intro lines current; simp [stateGo]
  | cons c cs ih =>
      intro lines current
      simp only [stateGo]
      split
      · rw [ih (lines ++ [current]) "", List.nil_append, ih [current] ""]
        simp
      · exact ih lines _

theorem splitGo_ne_nil (cs : List Char) : ∀ lines current,
    current ≠ "" ∨ lines ≠ [] → splitGo cs lines current ≠ [] := by
  induction cs with
  | nil =>
      intro lines current h
      simp only [splitGo]
      split
      · simp
      · rcases h with h | h
        · simp_all
        · exact h
  | cons c cs ih =>
      intro lines current h
      simp only [splitGo]
      split
      · exact ih _ "" (Or.inr (by simp))
      · refine ih _ _ ?_
        rcases h with h | h
        · refine Or.inl ?_
          intro hc
          have := congrArg String.data hc
          simp [String.data_push] at this
        · exact Or.inr h

theorem splitLinesKeepNewline_ne_nil (s : String) (hs : s ≠ "") :
    splitLinesKeepNewline s ≠ [] := by
  unfold splitLinesKeepNewline
  have hd : s.data ≠ [] := by
    intro h
    exact hs (String.ext h)
  cases hcs : s.data with
  | nil => exact absurd hcs hd
  | cons c cs =>
      simp only [splitGo]
      split
      · exact splitGo_ne_nil cs [""] "" (Or.inr (by simp))
      · refine splitGo_ne_nil cs [] _ (Or.inl ?_)
        intro hc
        have := congrArg String.data hc
        simp [String.data_push] at this

theorem splitLines_ne_nil (s : String) (hs : s ≠ "") : splitLines s ≠ [] := by
  unfold splitLines
  simp only [hs, if_false]
  exact splitLinesKeepNewline_ne_nil s hs

theorem splitLines_eq_nil (s : String) : splitLines s = [] ↔ s = "" := by
  constructor
  · intro h
    by_contra hs
    exact splitLines_ne_nil s hs h
  · intro h
    subst h
    rfl

theorem mem_splitGo_no_newline (cs : List Char) : ∀ lines current,
    (∀ l ∈ lines, '\n' ∉ l.data) → '\n' ∉ current.data →
    ∀ l ∈ splitGo cs lines current, '\n' ∉ l.data := by
  induction cs with
  | nil =>
      intro lines current hl hc l hmem
      simp only [splitGo] at hmem
      split at hmem
      · rcases List.mem_append.mp hmem with h | h
        · exact hl l h
        · simp at h; subst h; exact hc
      · exact hl l hmem
  | cons c cs ih =>
      intro lines current hl hc l hmem
      simp only [splitGo] at hmem
      split at hmem
      · refine ih _ "" ?_ (by simp) l hmem
        intro x hx
        rcases List.mem_append.mp hx with h | h
        · exact hl x h
        · simp at h; subst h; exact hc
      · refine ih _ _ hl ?_ l hmem
        rename_i hne
        simp only [String.data_push, List.mem_append]
        rintro (h | h)
        · exact hc h
        · simp at h; exact hne h.symm

/-- Helper for C10: the final `current` is non-empty when the input is
non-empty and does not end in a newline. -/
theorem stateGo_last_ne_newline (cs : List Char) : ∀ lines current,
    cs ≠ [] → cs.getLast? ≠ some '\n' → (stateGo cs lines current).2 ≠ "" := by
  induction cs with
  | nil => intro _ _ h; exact absurd rfl h
  | cons c cs ih =>
      intro lines current _ hlast
      cases cs with
      | nil =>
          have hcne : ¬c = '\n' := by
            intro h
            subst h
            exact hlast rfl
          simp only [stateGo, if_neg hcne]
          show current.push c ≠ ""
          intro hc
          have := congrArg String.data hc
          simp [String.data_push] at this
      | cons d ds =>
          rw [List.getLast?_cons_cons] at hlast
          simp only [stateGo]
          split
          · exact ih _ _ (by simp) hlast
          · exact ih _ _ (by simp) hlast

/-! ### Characterization of the `b2j` index -/

/-- Proof-side description of the raw index: the ascending list of positions
(offset by `i`) at which the value `v` occurs. -/
def posFrom : Nat → List String → String → List Nat
  | _, [], _ => []
  | i, x :: xs, v => (if x = v then [i] else []) ++ posFrom (i + 1) xs v

theorem b2jLoop_apply (bs : List String) : ∀ (i : Nat) (m : String → List Nat) (v : String),
    b2jLoop i bs m v = m v ++ posFrom i bs v := by
  induction bs with
  | nil => intro i m v; simp [b2jLoop, posFrom]
  | cons x xs ih =>
      intro i m v
      simp only [b2jLoop, posFrom]
      rw [ih]
      by_cases h : v = x
      · subst h
        simp
      · have h' : ¬x = v := fun hh => h hh.symm
        simp [h, h']

theorem b2jRaw_apply (b : List String) (v : String) :
    b2jRaw b v = posFrom 0 b v := by
  unfold b2jRaw
  rw [b2jLoop_apply]
  simp

theorem mem_posFrom (bs : List String) : ∀ (i : Nat) (v : String) (j : Nat),
    j ∈ posFrom i bs v ↔ ∃ t, t < bs.length ∧ j = i + t ∧ bs.getD t "" = v := by
  induction bs with
  | nil => intro i v j; simp [posFrom]
  | cons x xs ih =>
      intro i v j
      simp only [posFrom, List.mem_append]
      constructor
      · rintro (h | h)
        · split at h
          · simp at h
            subst h
            exact ⟨0, by simp, by simp, by simpa using (by assumption : x = v)⟩
          · simp at h
        · rcases (ih (i + 1) v j).mp h with ⟨t, ht, hj, hv⟩
          exact ⟨t + 1, by simpa using ht, by omega, by simpa using hv⟩
      · rintro ⟨t, ht, hj, hv⟩
        cases t with
        | zero =>
            left
            simp at hv
            simp [hv, hj]
        | succ t =>
            right
            refine (ih (i + 1) v j).mpr ⟨t, by simpa using ht, by omega, by simpa using hv⟩

theorem posFrom_lower (bs : List String) (i : Nat) (v : String) :
    ∀ j ∈ posFrom i bs v, i ≤ j := by
  intro j hj
  rcases (mem_posFrom bs i v j).mp hj with ⟨t, _, hj, _⟩
  omega

theorem posFrom_sorted (bs : List String) : ∀ (i : Nat) (v : String),
    List.Sorted (· < ·) (posFrom i bs v) := by
  induction bs with
  | nil => intro i v; simp [posFrom]
  | cons x xs ih =>
      intro i v
      simp only [posFrom]
      split
      · refine List.sorted_cons.mpr ⟨?_, ih (i + 1) v⟩
        intro j hj
        have := posFrom_lower xs (i + 1) v j hj
        omega
      · simpa using ih (i + 1) v

theorem posFrom_length (bs : List String) : ∀ (i : Nat) (v : String),
    (posFrom i bs v).length = bs.count v := by
  induction bs with
  | nil => intro i v; simp [posFrom]
  | cons x xs ih =>
      intro i v
      simp only [posFrom, List.length_append, List.count_cons, ih]
      by_cases h : x = v
      · simp [h]
        omega
      · have h' : ¬(x == v) = true := by simpa using h
        simp [h, h']

/-- With no junk predicate (the `Histogram` configuration), the post-junk
index is the raw index. -/
theorem b2jAfterJunk_none (m : sequenceMatcher) (hj : m.IsJunk = none) (v : String) :
    b2jAfterJunk m v = b2jRaw m.b v := by
  unfold b2jAfterJunk bJunk
  rw [hj]
  simp

/-- C8: in `chainB` (as configured by `newMatcher`: `autoJunk` on, no junk
predicate), when `b` has at least 200 lines every value occurring at more
than `len(b)/100 + 1` positions is purged from `b2j` and recorded in
`bPopular`; otherwise the value keeps its full ascending position list
(`posFrom 0 b v`, whose members are exactly the positions of `v` in `b`). -/
theorem C8_chainB_popular (a b : List String) (v : String) :
    (200 ≤ b.length → b.length / 100 + 1 < b.count v →
      b2j (newMatcher a b) v = [] ∧ bPopular (newMatcher a b) v = true) ∧
    (b.length < 200 ∨ b.count v ≤ b.length / 100 + 1 →
      b2j (newMatcher a b) v = posFrom 0 b v) ∧
    List.Sorted (· < ·) (posFrom 0 b v) ∧
    (∀ j, j ∈ posFrom 0 b v ↔ j < b.length ∧ b.getD j "" = v) := by
  have hAfter : ∀ w, b2jAfterJunk (newMatcher a b) w = b2jRaw b w := by
    intro w
    exact b2jAfterJunk_none (newMatcher a b) rfl w
  have hlen : (b2jAfterJunk (newMatcher a b) v).length = b.count v := by
    rw [hAfter, b2jRaw_apply, posFrom_length]
  refine ⟨?_, ?_, posFrom_sorted b 0 v, ?_⟩
  · intro h200 hcount
    have hpop : bPopular (newMatcher a b) v = true := by
      unfold bPopular
      simp only [newMatcher] at hlen ⊢
      simp only [hlen]
      simp [h200, hcount]
    refine ⟨?_, hpop⟩
    unfold b2j
    rw [hpop]
    simp
  · intro h
    have hpop : bPopular (newMatcher a b) v = false := by
      unfold bPopular
      simp only [newMatcher] at hlen ⊢
      simp only [hlen]
      rcases h with h | h
      · simp [Nat.not_le.mpr h]
      · simp [Nat.not_lt.mpr h]
    unfold b2j
    rw [hpop]
    simp only [Bool.false_eq_true, if_false]
    rw [hAfter, b2jRaw_apply]
  · intro j
    rw [mem_posFrom]
    constructor
    · rintro ⟨t, ht, hj, hv⟩
      have hjt : j = t := by omega
      subst hjt
      exact ⟨ht, hv⟩
    · rintro ⟨hjl, hjv⟩
      exact ⟨j, hjl, by omega, hjv⟩

set_option maxRecDepth 10000 in
/-- Witness for C8: in a 201-line sequence, the value occurring 200 times
(ntest = 3) is purged, while the value occurring once keeps its position
list. -/
theorem C8_chainB_popular_witness :
    b2j (newMatcher [] (List.replicate 200 "x" ++ ["y"])) "x" = [] ∧
    b2j (newMatcher [] (List.replicate 200 "x" ++ ["y"])) "y" =
      posFrom 0 (List.replicate 200 "x" ++ ["y"]) "y" :=
  ⟨((C8_chainB_popular [] (List.replicate 200 "x" ++ ["y"]) "x").1
      (by decide) (by decide)).1,
    (C8_chainB_popular [] (List.replicate 200 "x" ++ ["y"]) "y").2.1
      (Or.inr (by decide))⟩

/-! ### Claims C7, C10 groundwork, C3 -/

/-- C7: the line splitter maps `""` to `[]` (not `[""]`), no output element
contains a line feed, and a `"\n\n"` occurrence always produces a genuine
empty-string element: the output decomposes as the lines accumulated before
the occurrence, the line closed by the first `\n`, the empty element closed
by the second `\n`, and then the split of the remainder. -/
theorem C7_splitLines_spec :
    splitLines "" = [] ∧
    (∀ s : String, ∀ l ∈ splitLines s, '\n' ∉ l.data) ∧
    (∀ s₁ s₂ : String,
      splitLines (s₁ ++ "\n\n" ++ s₂) =
        (stateGo s₁.data [] "").1 ++ [(stateGo s₁.data [] "").2, ""] ++
          splitLinesKeepNewline s₂) := by
  refine ⟨rfl, ?_, ?_⟩
  · intro s l hl
    unfold splitLines at hl
    split at hl
    · simp at hl
    · exact mem_splitGo_no_newline s.data [] "" (by simp) (by simp) l hl
  · intro s₁ s₂
    have hne : s₁ ++ "\n\n" ++ s₂ ≠ "" := by
      intro h
      have h2 := congrArg String.data h
      simp only [String.data_append] at h2
      simp at h2
    unfold splitLines splitLinesKeepNewline
    rw [if_neg hne]
    have hdata : (s₁ ++ "\n\n" ++ s₂).data = s₁.data ++ ('\n' :: '\n' :: s₂.data) := by
      simp only [String.data_append]
      simp
    rw [hdata, splitGo_eq_stateGo, stateGo_append]
    have h2 : stateGo ('\n' :: '\n' :: s₂.data) (stateGo s₁.data [] "").1
          (stateGo s₁.data [] "").2
        = stateGo s₂.data
            ((stateGo s₁.data [] "").1 ++ [(stateGo s₁.data [] "").2] ++ [""]) "" := by
      simp [stateGo]
    rw [h2, stateGo_acc s₂.data, splitGo_eq_stateGo s₂.data]
    simp

/-- A single trailing newline is invisible to the splitter (helper for
C10). -/
theorem splitLines_append_newline (s : String) (hs : s ≠ "")
    (hlast : s.data.getLast? ≠ some '\n') :
    splitLines (s ++ "\n") = splitLines s := by
  have hd : s.data ≠ [] := fun h => hs (String.ext (h.trans rfl))
  have hne : (s ++ "\n") ≠ "" := by
    intro h
    have h2 := congrArg String.data h
    rw [String.data_append] at h2
    have : ("\n" : String).data = ['\n'] := rfl
    rw [this] at h2
    simp at h2
  unfold splitLines
  rw [if_neg hne, if_neg hs]
  unfold splitLinesKeepNewline
  have hdata : (s ++ "\n").data = s.data ++ ['\n'] := by
    rw [String.data_append]
  rw [hdata, splitGo_eq_stateGo, stateGo_append]
  have h2 : stateGo ['\n'] (stateGo s.data [] "").1 (stateGo s.data [] "").2
      = ((stateGo s.data [] "").1 ++ [(stateGo s.data [] "").2], "") := by
    simp [stateGo]
  rw [h2, splitGo_eq_stateGo s.data]
  have hcur : (stateGo s.data [] "").2 ≠ "" :=
    stateGo_last_ne_newline s.data [] "" hd hlast
  simp [hcur]

/-- Mapping `getD` over `range' i n` gives the slice `[i, i+n)`. -/
theorem range'_map_getD {α : Type} (d : α) : ∀ (n i : Nat) (l : List α),
    i + n ≤ l.length →
    (List.range' i n).map (fun t => l.getD t d) = (l.drop i).take n := by
  intro n
  induction n with
  | zero => intro i l _; simp
  | succ n ih =>
      intro i l h
      have hi : i < l.length := by omega
      rw [List.range'_succ, List.map_cons, ih (i + 1) l (by omega),
        List.drop_eq_getElem_cons hi, List.take_succ_cons]
      simp [List.getD, List.getElem?_eq_getElem hi]

/-- C3: a Replace opcode emits all Deleted lines of the old sub-range, then
all Added lines of the new sub-range, never interleaved; and the spec's
concrete single-substitution example holds. -/
theorem C3_replace_order :
    (∀ (oldLines newLines : List String) (op : opCode),
      op.Tag = opReplace → op.I1 ≤ op.I2 → op.I2 ≤ oldLines.length →
      op.J1 ≤ op.J2 → op.J2 ≤ newLines.length →
      ∃ dels adds,
        processOp oldLines newLines op = dels ++ adds ∧
        (∀ d ∈ dels, d.Kind = DiffOld) ∧
        (∀ d ∈ adds, d.Kind = DiffNew) ∧
        dels.map DiffLine.Line = (oldLines.drop op.I1).take (op.I2 - op.I1) ∧
        adds.map DiffLine.Line = (newLines.drop op.J1).take (op.J2 - op.J1)) ∧
    Histogram "line1\nline2\nline3" "line1\nmodified\nline3" =
      [⟨1, 1, "line1", DiffShared⟩, ⟨2, 0, "line2", DiffOld⟩,
        ⟨0, 2, "modified", DiffNew⟩, ⟨3, 3, "line3", DiffShared⟩] := by
  constructor
  · intro ol nl op htag hI12 hIlen hJ12 hJlen
    have hOp : processOp ol nl op =
        (List.range' op.I1 (op.I2 - op.I1)).map (fun i =>
          { OldNumber := i + 1, NewNumber := 0,
            Line := ol.getD i "", Kind := DiffOld }) ++
        (List.range' op.J1 (op.J2 - op.J1)).map (fun j =>
          { OldNumber := 0, NewNumber := j + 1,
            Line := nl.getD j "", Kind := DiffNew }) := by
      unfold processOp
      rw [htag]
      rfl
    refine ⟨_, _, hOp, ?_, ?_, ?_, ?_⟩
    · intro d hd
      simp only [List.mem_map] at hd
      obtain ⟨i, _, hi⟩ := hd
      rw [← hi]
    · intro d hd
      simp only [List.mem_map] at hd
      obtain ⟨j, _, hj⟩ := hd
      rw [← hj]
    · rw [List.map_map]
      exact range'_map_getD "" (op.I2 - op.I1) op.I1 ol (by omega)
    · rw [List.map_map]
      exact range'_map_getD "" (op.J2 - op.J1) op.J1 nl (by omega)
  · decide

/-- Witness for the general part of C3 at a concrete Replace opcode. -/
theorem C3_replace_order_witness :
    ∃ dels adds,
      processOp ["a", "b"] ["a", "c"] ⟨opReplace, 1, 2, 1, 2⟩ = dels ++ adds ∧
      (∀ d ∈ dels, d.Kind = DiffOld) ∧
      (∀ d ∈ adds, d.Kind = DiffNew) ∧
      dels.map DiffLine.Line = ((["a", "b"] : List String).drop 1).take 1 ∧
      adds.map DiffLine.Line = ((["a", "c"] : List String).drop 1).take 1 :=
  C3_replace_order.1 ["a", "b"] ["a", "c"] ⟨opReplace, 1, 2, 1, 2⟩
    rfl (by decide) (by decide) (by decide) (by decide)

end diff

namespace diffwf

/-! ### Claim C9 -/

/-- Modelled from the spec: the traceback the spec describes, which
"backtracks preferring new on ties" — identical to `tracebackGo` except
that on equal costs (`matrix[i][j-1] == matrix[i-1][j]`) it emits the new
line (`≤` in place of the code's strict `<`). -/
def tracebackPreferNewGo (old new : List String) (matrix : List (List Nat)) :
    Nat → Nat → Nat → List DiffLine
  | 0, _, _ => []
  | fuel + 1, i, j =>
      if i = 0 ∧ j = 0 then []
      else if 0 < i ∧ 0 < j ∧ old.getD (i - 1) "" = new.getD (j - 1) "" then
        tracebackPreferNewGo old new matrix fuel (i - 1) (j - 1) ++
          [{ Number := 0, Line := old.getD (i - 1) "", Kind := DiffKind.DiffShared }]
      else if 0 < j ∧ (i = 0 ∨ mcell matrix i (j - 1) ≤ mcell matrix (i - 1) j) then
        tracebackPreferNewGo old new matrix fuel i (j - 1) ++
          [{ Number := 0, Line := new.getD (j - 1) "", Kind := DiffKind.DiffNew }]
      else if 0 < i then
        tracebackPreferNewGo old new matrix fuel (i - 1) j ++
          [{ Number := 0, Line := old.getD (i - 1) "", Kind := DiffKind.DiffOld }]
      else
        tracebackPreferNewGo old new matrix fuel i (j - 1) ++
          [{ Number := 0, Line := new.getD (j - 1) "", Kind := DiffKind.DiffNew }]

/-- Modelled from the spec: full prefer-new traceback with renumbering. -/
def tracebackPreferNew (old new : List String) (matrix : List (List Nat)) :
    List DiffLine :=
  let result :=
    tracebackPreferNewGo old new matrix (old.length + new.length)
      old.length new.length
  result.enum.map (fun p => { p.2 with Number := p.1 + 1 })

/-- Counterexample to C9: on `old = "a"`, `new = "b"` the traceback meets a
tie (`matrix[1][0] = matrix[0][1]`), and the code's output differs from the
prefer-new-on-tie semantics the claim describes: the code takes the
Deleted (old) branch at the tie. -/
theorem C9_counterexample :
    mcell (computeEditDistance ["a"] ["b"]) 1 0 =
      mcell (computeEditDistance ["a"] ["b"]) 0 1 ∧
    Histogram "a" "b" =
      [⟨1, "b", DiffKind.DiffNew⟩, ⟨2, "a", DiffKind.DiffOld⟩] ∧
    tracebackPreferNew ["a"] ["b"] (computeEditDistance ["a"] ["b"]) =
      [⟨1, "a", DiffKind.DiffOld⟩, ⟨2, "b", DiffKind.DiffNew⟩] ∧
    Histogram "a" "b" ≠
      tracebackPreferNew ["a"] ["b"] (computeEditDistance ["a"] ["b"]) :=
  ⟨by decide, by decide, by decide, by decide⟩

/-- C9 as amended: on a tie between `matrix[i][j-1]` and `matrix[i-1][j]`
(with differing lines), the traceback emits the old line (Deleted), not the
new one. -/
theorem C9_amended_tie_prefers_old (old new : List String)
    (matrix : List (List Nat)) (fuel i j : Nat) (hi : 0 < i) (hj : 0 < j)
    (hne : old.getD (i - 1) "" ≠ new.getD (j - 1) "")
    (htie : mcell matrix i (j - 1) = mcell matrix (i - 1) j) :
    tracebackGo old new matrix (fuel + 1) i j =
      tracebackGo old new matrix fuel (i - 1) j ++
        [{ Number := 0, Line := old.getD (i - 1) "", Kind := DiffKind.DiffOld }] := by
  have h1 : ¬(i = 0 ∧ j = 0) := by omega
  have h2 : ¬(0 < i ∧ 0 < j ∧ old.getD (i - 1) "" = new.getD (j - 1) "") := by
    rintro ⟨_, _, h⟩
    exact hne h
  have h3 : ¬(0 < j ∧ (i = 0 ∨ mcell matrix i (j - 1) < mcell matrix (i - 1) j)) := by
    rintro ⟨_, h | h⟩
    · omega
    · omega
  simp only [tracebackGo]
  rw [if_neg h1, if_neg h2, if_neg h3, if_pos hi]

/-- Witness for the amended C9 at `old = ["a"]`, `new = ["b"]`, `(i,j) = (1,1)`. -/
theorem C9_amended_tie_prefers_old_witness :
    (0 < 1 ∧ (["a"] : List String).getD 0 "" ≠ (["b"] : List String).getD 0 "" ∧
      mcell (computeEditDistance ["a"] ["b"]) 1 0 =
        mcell (computeEditDistance ["a"] ["b"]) 0 1) ∧
    tracebackGo ["a"] ["b"] (computeEditDistance ["a"] ["b"]) 2 1 1 =
      tracebackGo ["a"] ["b"] (computeEditDistance ["a"] ["b"]) 1 0 1 ++
        [{ Number := 0, Line := "a", Kind := DiffKind.DiffOld }] :=
  ⟨⟨by decide, by decide, by decide⟩,
    by
      exact C9_amended_tie_prefers_old ["a"] ["b"]
        (computeEditDistance ["a"] ["b"]) 1 1 1
        (by decide) (by decide) (by decide) (by decide)⟩

end diffwf

namespace diff

/-! ### Invariants of `findLongestMatch`: bounds and matched-run equality -/

theorem b2j_eq_or (m : sequenceMatcher) (v : String) :
    b2j m v = [] ∨ b2j m v = posFrom 0 m.b v := by
  unfold b2j b2jAfterJunk
  split
  · exact Or.inl rfl
  · split
    · exact Or.inl rfl
    · exact Or.inr (b2jRaw_apply m.b v)

theorem mem_b2j (m : sequenceMatcher) (v : String) (j : Nat) (h : j ∈ b2j m v) :
    j < m.b.length ∧ m.b.getD j "" = v := by
  rcases b2j_eq_or m v with he | he
  · rw [he] at h
    simp at h
  · rw [he] at h
    rcases (mem_posFrom m.b 0 v j).mp h with ⟨t, ht, hj, hv⟩
    have hjt : j = t := by omega
    subst hjt
    exact ⟨ht, hv⟩

theorem b2j_sorted (m : sequenceMatcher) (v : String) :
    List.Sorted (· < ·) (b2j m v) := by
  rcases b2j_eq_or m v with he | he <;> rw [he]
  · simp
  · exact posFrom_sorted m.b 0 v

/-- Invariant of the `j2len` map before processing row `i`: every non-zero
entry sits at a Nat key `jx ≥ blo`, its run length is bounded by the column
and row windows, and it records an actual equal run ending at `(i-1, jx)`. -/
def J2LenInv (m : sequenceMatcher) (alo blo i : Nat) (f : Int → Nat) : Prop :=
  ∀ x : Int, f x ≠ 0 → ∃ jx : Nat, x = (jx : Int) ∧ blo ≤ jx ∧
    f x ≤ jx + 1 - blo ∧ f x ≤ i - alo ∧
    ∀ t < f x, m.a.getD (i - 1 - t) "" = m.b.getD (jx - t) ""

/-- Invariant of the best match: within the ranges, and an actual equal
run of that length. -/
def BestInv (m : sequenceMatcher) (alo ahi blo bhi : Nat) (best : MatchT) : Prop :=
  alo ≤ best.A ∧ best.A + best.Size ≤ ahi ∧ blo ≤ best.B ∧ best.B + best.Size ≤ bhi ∧
  ∀ t < best.Size, m.a.getD (best.A + t) "" = m.b.getD (best.B + t) ""

theorem innerLoop_inv (m : sequenceMatcher) (alo ahi blo bhi i : Nat)
    (hialo : alo ≤ i) (hiahi : i < ahi) :
    ∀ (js : List Nat) (j2len newj2len : Int → Nat) (best : MatchT),
    (∀ j ∈ js, m.b.getD j "" = m.a.getD i "") →
    J2LenInv m alo blo i j2len →
    J2LenInv m alo blo (i + 1) newj2len →
    BestInv m alo ahi blo bhi best →
    J2LenInv m alo blo (i + 1) (innerLoop blo bhi i js j2len newj2len best).1 ∧
    BestInv m alo ahi blo bhi (innerLoop blo bhi i js j2len newj2len best).2 := by
  intro js
  induction js with
  | nil =>
      intro j2len newj2len best _ _ hnew hbest
      exact ⟨hnew, hbest⟩
  | cons j js ih =>
      intro j2len newj2len best hjs hold hnew hbest
      simp only [innerLoop]
      by_cases hjblo : j < blo
      · rw [if_pos hjblo]
        exact ih j2len newj2len best
          (fun x hx => hjs x (List.mem_cons_of_mem j hx)) hold hnew hbest
      · rw [if_neg hjblo]
        by_cases hjbhi : bhi ≤ j
        · rw [if_pos hjbhi]
          exact ⟨hnew, hbest⟩
        · rw [if_neg hjbhi]
          have hbloj : blo ≤ j := by omega
          have hjbhi' : j < bhi := by omega
          have hcand : m.b.getD j "" = m.a.getD i "" := hjs j (List.mem_cons_self j js)
          have hkfacts : j2len ((j : Int) - 1) + 1 ≤ j + 1 - blo ∧
              j2len ((j : Int) - 1) + 1 ≤ i + 1 - alo ∧
              ∀ t < j2len ((j : Int) - 1) + 1,
                m.a.getD (i - t) "" = m.b.getD (j - t) "" := by
            by_cases h0 : j2len ((j : Int) - 1) = 0
            · refine ⟨by omega, by omega, ?_⟩
              intro t ht
              have ht0 : t = 0 := by omega
              subst ht0
              simpa using hcand.symm
            · obtain ⟨jx, hxe, hxblo, hxcol, hxrow, hxrun⟩ := hold _ h0
              have hjx1 : jx + 1 = j := by omega
              refine ⟨by omega, by omega, ?_⟩
              intro t ht
              cases t with
              | zero => simpa using hcand.symm
              | succ t' =>
                  have ht' : t' < j2len ((j : Int) - 1) := by omega
                  have hr := hxrun t' ht'
                  have e1 : i - (t' + 1) = i - 1 - t' := by omega
                  have e2 : j - (t' + 1) = jx - t' := by omega
                  rw [e1, e2]
                  exact hr
          obtain ⟨hkcol, hkrow, hkrun⟩ := hkfacts
          have hnew' : J2LenInv m alo blo (i + 1)
              (fun x => if x = (j : Int) then j2len ((j : Int) - 1) + 1
                else newj2len x) := by
            intro x hx
            have hx1 : (if x = (j : Int) then j2len ((j : Int) - 1) + 1
                else newj2len x) ≠ 0 := hx
            by_cases hxj : x = (j : Int)
            · subst hxj
              refine ⟨j, rfl, hbloj, ?_, ?_, ?_⟩
              · show (if ((j : Int)) = ((j : Int)) then j2len ((j : Int) - 1) + 1
                  else newj2len (j : Int)) ≤ j + 1 - blo
                rw [if_pos rfl]
                exact hkcol
              · show (if ((j : Int)) = ((j : Int)) then j2len ((j : Int) - 1) + 1
                  else newj2len (j : Int)) ≤ i + 1 - alo
                rw [if_pos rfl]
                exact hkrow
              · intro t ht
                have ht2 : t < (if ((j : Int)) = ((j : Int)) then j2len ((j : Int) - 1) + 1
                    else newj2len (j : Int)) := ht
                rw [if_pos rfl] at ht2
                have e : i + 1 - 1 - t = i - t := by omega
                rw [e]
                exact hkrun t ht2
            · rw [if_neg hxj] at hx1
              obtain ⟨jx, h1, h2, h3, h4, h5⟩ := hnew x hx1
              refine ⟨jx, h1, h2, ?_, ?_, ?_⟩
              · show (if x = ((j : Int)) then j2len ((j : Int) - 1) + 1
                  else newj2len x) ≤ jx + 1 - blo
                rw [if_neg hxj]
                exact h3
              · show (if x = ((j : Int)) then j2len ((j : Int) - 1) + 1
                  else newj2len x) ≤ i + 1 - alo
                rw [if_neg hxj]
                exact h4
              · intro t ht
                have ht2 : t < (if x = ((j : Int)) then j2len ((j : Int) - 1) + 1
                    else newj2len x) := ht
                rw [if_neg hxj] at ht2
                exact h5 t ht2
          by_cases hbk : best.Size < j2len ((j : Int) - 1) + 1
          · rw [if_pos hbk]
            apply ih _ _ _ (fun x hx => hjs x (List.mem_cons_of_mem j hx)) hold hnew'
            refine ⟨?_, ?_, ?_, ?_, ?_⟩
            · show alo ≤ i + 1 - (j2len ((j : Int) - 1) + 1)
              omega
            · show i + 1 - (j2len ((j : Int) - 1) + 1) + (j2len ((j : Int) - 1) + 1) ≤ ahi
              omega
            · show blo ≤ j + 1 - (j2len ((j : Int) - 1) + 1)
              omega
            · show j + 1 - (j2len ((j : Int) - 1) + 1) + (j2len ((j : Int) - 1) + 1) ≤ bhi
              omega
            · intro t ht
              have ht' : t < j2len ((j : Int) - 1) + 1 := ht
              show m.a.getD (i + 1 - (j2len ((j : Int) - 1) + 1) + t) "" =
                m.b.getD (j + 1 - (j2len ((j : Int) - 1) + 1) + t) ""
              have e1 : i + 1 - (j2len ((j : Int) - 1) + 1) + t =
                  i - (j2len ((j : Int) - 1) + 1 - 1 - t) := by omega
              have e2 : j + 1 - (j2len ((j : Int) - 1) + 1) + t =
                  j - (j2len ((j : Int) - 1) + 1 - 1 - t) := by omega
              rw [e1, e2]
              exact hkrun _ (by omega)
          · rw [if_neg hbk]
            exact ih _ _ _ (fun x hx => hjs x (List.mem_cons_of_mem j hx)) hold hnew' hbest

theorem scanRows_inv (m : sequenceMatcher) (alo ahi blo bhi : Nat) :
    ∀ (cnt i : Nat) (j2len : Int → Nat) (best : MatchT),
    alo ≤ i → i + cnt = ahi →
    J2LenInv m alo blo i j2len →
    BestInv m alo ahi blo bhi best →
    BestInv m alo ahi blo bhi (scanRows m blo bhi i cnt j2len best) := by
  intro cnt
  induction cnt with
  | zero => intro i j2len best _ _ _ hbest; exact hbest
  | succ cnt ih =>
      intro i j2len best hlo heq hj2 hbest
      simp only [scanRows]
      have hmem : ∀ j ∈ b2j m (m.a.getD i ""), m.b.getD j "" = m.a.getD i "" :=
        fun j hj => (mem_b2j m _ j hj).2
      have hnew0 : J2LenInv m alo blo (i + 1) (fun _ => 0) := by
        intro x hx
        exact absurd rfl hx
      have hinner := innerLoop_inv m alo ahi blo bhi i hlo (by omega)
        (b2j m (m.a.getD i "")) j2len (fun _ => 0) best hmem hj2 hnew0 hbest
      exact ih (i + 1) _ _ (by omega) (by omega) hinner.1 hinner.2

theorem extendNonJunkBack_inv (m : sequenceMatcher) (alo ahi blo bhi : Nat) :
    ∀ (besti bestj bestsize : Nat),
    alo ≤ besti → besti + bestsize ≤ ahi → blo ≤ bestj → bestj + bestsize ≤ bhi →
    (∀ t < bestsize, m.a.getD (besti + t) "" = m.b.getD (bestj + t) "") →
    BestInv m alo ahi blo bhi (extendNonJunkBack m alo blo besti bestj bestsize) := by
  intro besti
  induction besti with
  | zero =>
      intro bestj bestsize h1 h2 h3 h4 h5
      exact ⟨h1, h2, h3, h4, h5⟩
  | succ bi ih =>
      intro bestj bestsize h1 h2 h3 h4 h5
      simp only [extendNonJunkBack]
      split
      · rename_i hg
        obtain ⟨hg1, hg2, hg3, hg4⟩ := hg
        apply ih (bestj - 1) (bestsize + 1) (by omega) (by omega) (by omega) (by omega)
        intro t ht
        cases t with
        | zero => simpa using hg4
        | succ t' =>
            have e1 : bi + (t' + 1) = bi + 1 + t' := by omega
            have e2 : bestj - 1 + (t' + 1) = bestj + t' := by omega
            rw [e1, e2]
            exact h5 t' (by omega)
      · exact ⟨h1, h2, h3, h4, h5⟩

theorem extendNonJunkFwd_inv (m : sequenceMatcher) (alo ahi blo bhi : Nat) :
    ∀ (fuel besti bestj bestsize : Nat),
    alo ≤ besti → besti + bestsize ≤ ahi → blo ≤ bestj → bestj + bestsize ≤ bhi →
    (∀ t < bestsize, m.a.getD (besti + t) "" = m.b.getD (bestj + t) "") →
    BestInv m alo ahi blo bhi
      ⟨besti, bestj, extendNonJunkFwd m ahi bhi besti bestj fuel bestsize⟩ := by
  intro fuel
  induction fuel with
  | zero =>
      intro besti bestj bestsize h1 h2 h3 h4 h5
      exact ⟨h1, h2, h3, h4, h5⟩
  | succ f ih =>
      intro besti bestj bestsize h1 h2 h3 h4 h5
      simp only [extendNonJunkFwd]
      split
      · rename_i hg
        obtain ⟨hg1, hg2, hg3, hg4⟩ := hg
        apply ih besti bestj (bestsize + 1) h1 (by omega) h3 (by omega)
        intro t ht
        rcases Nat.lt_succ_iff_lt_or_eq.mp ht with ht' | ht'
        · exact h5 t ht'
        · subst ht'
          exact hg4
      · exact ⟨h1, h2, h3, h4, h5⟩

theorem extendJunkBack_inv (m : sequenceMatcher) (alo ahi blo bhi : Nat) :
    ∀ (besti bestj bestsize : Nat),
    alo ≤ besti → besti + bestsize ≤ ahi → blo ≤ bestj → bestj + bestsize ≤ bhi →
    (∀ t < bestsize, m.a.getD (besti + t) "" = m.b.getD (bestj + t) "") →
    BestInv m alo ahi blo bhi (extendJunkBack m alo blo besti bestj bestsize) := by
  intro besti
  induction besti with
  | zero =>
      intro bestj bestsize h1 h2 h3 h4 h5
      exact ⟨h1, h2, h3, h4, h5⟩
  | succ bi ih =>
      intro bestj bestsize h1 h2 h3 h4 h5
      simp only [extendJunkBack]
      split
      · rename_i hg
        obtain ⟨hg1, hg2, hg3, hg4⟩ := hg
        apply ih (bestj - 1) (bestsize + 1) (by omega) (by omega) (by omega) (by omega)
        intro t ht
        cases t with
        | zero => simpa using hg4
        | succ t' =>
            have e1 : bi + (t' + 1) = bi + 1 + t' := by omega
            have e2 : bestj - 1 + (t' + 1) = bestj + t' := by omega
            rw [e1, e2]
            exact h5 t' (by omega)
      · exact ⟨h1, h2, h3, h4, h5⟩

theorem extendJunkFwd_inv (m : sequenceMatcher) (alo ahi blo bhi : Nat) :
    ∀ (fuel besti bestj bestsize : Nat),
    alo ≤ besti → besti + bestsize ≤ ahi → blo ≤ bestj → bestj + bestsize ≤ bhi →
    (∀ t < bestsize, m.a.getD (besti + t) "" = m.b.getD (bestj + t) "") →
    BestInv m alo ahi blo bhi
      ⟨besti, bestj, extendJunkFwd m ahi bhi besti bestj fuel bestsize⟩ := by
  intro fuel
  induction fuel with
  | zero =>
      intro besti bestj bestsize h1 h2 h3 h4 h5
      exact ⟨h1, h2, h3, h4, h5⟩
  | succ f ih =>
      intro besti bestj bestsize h1 h2 h3 h4 h5
      simp only [extendJunkFwd]
      split
      · rename_i hg
        obtain ⟨hg1, hg2, hg3, hg4⟩ := hg
        apply ih besti bestj (bestsize + 1) h1 (by omega) h3 (by omega)
        intro t ht
        rcases Nat.lt_succ_iff_lt_or_eq.mp ht with ht' | ht'
        · exact h5 t ht'
        · subst ht'
          exact hg4
      · exact ⟨h1, h2, h3, h4, h5⟩

/-- `findLongestMatch` returns a match inside the requested ranges whose
length-many lines really are pairwise equal. -/
theorem findLongestMatch_spec (m : sequenceMatcher) (alo ahi blo bhi : Nat)
    (hA : alo ≤ ahi) (hB : blo ≤ bhi) :
    BestInv m alo ahi blo bhi (findLongestMatch m alo ahi blo bhi) := by
  have hbest0 : BestInv m alo ahi blo bhi ⟨alo, blo, 0⟩ := by
    refine ⟨?_, ?_, ?_, ?_, ?_⟩
    · show alo ≤ alo
      omega
    · show alo + 0 ≤ ahi
      omega
    · show blo ≤ blo
      omega
    · show blo + 0 ≤ bhi
      omega
    · intro t ht
      have ht' : t < 0 := ht
      omega
  have hscan : BestInv m alo ahi blo bhi
      (scanRows m blo bhi alo (ahi - alo) (fun _ => 0) ⟨alo, blo, 0⟩) :=
    scanRows_inv m alo ahi blo bhi (ahi - alo) alo (fun _ => 0) ⟨alo, blo, 0⟩
      (le_refl alo) (by omega) (fun x hx => absurd rfl hx) hbest0
  set b1 := scanRows m blo bhi alo (ahi - alo) (fun _ => 0) ⟨alo, blo, 0⟩ with hb1
  obtain ⟨s1, s2, s3, s4, s5⟩ := hscan
  have he1 : BestInv m alo ahi blo bhi (extendNonJunkBack m alo blo b1.A b1.B b1.Size) :=
    extendNonJunkBack_inv m alo ahi blo bhi b1.A b1.B b1.Size s1 s2 s3 s4 s5
  set e1 := extendNonJunkBack m alo blo b1.A b1.B b1.Size with he1d
  obtain ⟨e11, e12, e13, e14, e15⟩ := he1
  have he2 : BestInv m alo ahi blo bhi
      ⟨e1.A, e1.B, extendNonJunkFwd m ahi bhi e1.A e1.B (ahi - (e1.A + e1.Size)) e1.Size⟩ :=
    extendNonJunkFwd_inv m alo ahi blo bhi (ahi - (e1.A + e1.Size)) e1.A e1.B e1.Size
      e11 e12 e13 e14 e15
  set s2v := extendNonJunkFwd m ahi bhi e1.A e1.B (ahi - (e1.A + e1.Size)) e1.Size with hs2
  obtain ⟨f1, f2, f3, f4, f5⟩ := he2
  have he3 : BestInv m alo ahi blo bhi (extendJunkBack m alo blo e1.A e1.B s2v) :=
    extendJunkBack_inv m alo ahi blo bhi e1.A e1.B s2v f1 f2 f3 f4 f5
  set e3 := extendJunkBack m alo blo e1.A e1.B s2v with he3d
  obtain ⟨g1, g2, g3, g4, g5⟩ := he3
  exact extendJunkFwd_inv m alo ahi blo bhi (ahi - (e3.A + e3.Size)) e3.A e3.B e3.Size
    g1 g2 g3 g4 g5

/-! ### `matchBlocks`: accumulator law, fuel monotonicity, specification -/

/-- Ordering/non-overlap of consecutive blocks in both sequences. -/
def blockLE (b1 b2 : MatchT) : Prop :=
  b1.A + b1.Size ≤ b2.A ∧ b1.B + b1.Size ≤ b2.B

/-- A block produced for the sub-ranges `[alo,ahi) × [blo,bhi)`: in range,
non-empty, and an actual equal run. -/
def BlockIn (m : sequenceMatcher) (alo ahi blo bhi : Nat) (bl : MatchT) : Prop :=
  alo ≤ bl.A ∧ bl.A + bl.Size ≤ ahi ∧ blo ≤ bl.B ∧ bl.B + bl.Size ≤ bhi ∧
  0 < bl.Size ∧
  ∀ t < bl.Size, m.a.getD (bl.A + t) "" = m.b.getD (bl.B + t) ""

theorem matchBlocksF_acc (m : sequenceMatcher) : ∀ (fuel alo ahi blo bhi : Nat)
    (acc : List MatchT),
    matchBlocksF m fuel alo ahi blo bhi acc =
      (matchBlocksF m fuel alo ahi blo bhi []).map (fun l => acc ++ l) := by
  intro fuel
  induction fuel with
  | zero => intro alo ahi blo bhi acc; rfl
  | succ fuel ih =>
      intro alo ahi blo bhi acc
      simp only [matchBlocksF]
      by_cases hsz : 0 < (findLongestMatch m alo ahi blo bhi).Size
      · rw [if_pos hsz, if_pos hsz]
        by_cases hg : alo < (findLongestMatch m alo ahi blo bhi).A ∧
            blo < (findLongestMatch m alo ahi blo bhi).B
        · rw [if_pos hg, if_pos hg, ih alo _ blo _ acc]
          rcases hrec : matchBlocksF m fuel alo (findLongestMatch m alo ahi blo bhi).A blo
              (findLongestMatch m alo ahi blo bhi).B [] with _ | l1
          · simp
          · simp only [Option.map_some', Option.some_bind]
            by_cases hr : (findLongestMatch m alo ahi blo bhi).A +
                  (findLongestMatch m alo ahi blo bhi).Size < ahi ∧
                (findLongestMatch m alo ahi blo bhi).B +
                  (findLongestMatch m alo ahi blo bhi).Size < bhi
            · rw [if_pos hr, if_pos hr, ih _ ahi _ bhi, ih _ ahi _ bhi (l1 ++ _)]
              rcases matchBlocksF m fuel _ ahi _ bhi [] with _ | l2
              · simp
              · simp
            · rw [if_neg hr, if_neg hr]
              simp
        · rw [if_neg hg, if_neg hg]
          simp only [Option.some_bind]
          by_cases hr : (findLongestMatch m alo ahi blo bhi).A +
                (findLongestMatch m alo ahi blo bhi).Size < ahi ∧
              (findLongestMatch m alo ahi blo bhi).B +
                (findLongestMatch m alo ahi blo bhi).Size < bhi
          · rw [if_pos hr, if_pos hr, ih _ ahi _ bhi, ih _ ahi _ bhi ([] ++ _)]
            rcases matchBlocksF m fuel _ ahi _ bhi [] with _ | l2
            · simp
            · simp
          · rw [if_neg hr, if_neg hr]
            simp
      · rw [if_neg hsz, if_neg hsz]
        simp

theorem matchBlocksF_succ (m : sequenceMatcher) (fuel alo ahi blo bhi : Nat)
    (matched : List MatchT) :
    matchBlocksF m (fuel + 1) alo ahi blo bhi matched =
      (if 0 < (findLongestMatch m alo ahi blo bhi).Size then
        (if alo < (findLongestMatch m alo ahi blo bhi).A ∧
            blo < (findLongestMatch m alo ahi blo bhi).B then
          matchBlocksF m fuel alo (findLongestMatch m alo ahi blo bhi).A blo
            (findLongestMatch m alo ahi blo bhi).B matched
        else some matched).bind (fun left =>
          if (findLongestMatch m alo ahi blo bhi).A +
                (findLongestMatch m alo ahi blo bhi).Size < ahi ∧
              (findLongestMatch m alo ahi blo bhi).B +
                (findLongestMatch m alo ahi blo bhi).Size < bhi then
            matchBlocksF m fuel
              ((findLongestMatch m alo ahi blo bhi).A +
                (findLongestMatch m alo ahi blo bhi).Size) ahi
              ((findLongestMatch m alo ahi blo bhi).B +
                (findLongestMatch m alo ahi blo bhi).Size) bhi
              (left ++ [findLongestMatch m alo ahi blo bhi])
          else some (left ++ [findLongestMatch m alo ahi blo bhi]))
      else some matched) := rfl

theorem matchBlocksF_mono (m : sequenceMatcher) : ∀ (fuel alo ahi blo bhi : Nat)
    (acc L : List MatchT),
    matchBlocksF m fuel alo ahi blo bhi acc = some L →
    matchBlocksF m (fuel + 1) alo ahi blo bhi acc = some L := by
  intro fuel
  induction fuel with
  | zero => intro alo ahi blo bhi acc L h; exact absurd h (by simp [matchBlocksF])
  | succ fuel ih =>
      intro alo ahi blo bhi acc L h
      rw [matchBlocksF_succ] at h
      rw [matchBlocksF_succ]
      by_cases hsz : 0 < (findLongestMatch m alo ahi blo bhi).Size
      · rw [if_pos hsz] at h ⊢
        by_cases hg : alo < (findLongestMatch m alo ahi blo bhi).A ∧
            blo < (findLongestMatch m alo ahi blo bhi).B
        · rw [if_pos hg] at h ⊢
          rcases hrec : matchBlocksF m fuel alo (findLongestMatch m alo ahi blo bhi).A blo
              (findLongestMatch m alo ahi blo bhi).B acc with _ | l1
          · rw [hrec] at h
            simp at h
          · rw [hrec] at h
            rw [ih _ _ _ _ _ _ hrec]
            simp only [Option.some_bind] at h ⊢
            by_cases hr : (findLongestMatch m alo ahi blo bhi).A +
                  (findLongestMatch m alo ahi blo bhi).Size < ahi ∧
                (findLongestMatch m alo ahi blo bhi).B +
                  (findLongestMatch m alo ahi blo bhi).Size < bhi
            · rw [if_pos hr] at h ⊢
              exact ih _ _ _ _ _ _ h
            · rw [if_neg hr] at h ⊢
              exact h
        · rw [if_neg hg] at h ⊢
          simp only [Option.some_bind] at h ⊢
          by_cases hr : (findLongestMatch m alo ahi blo bhi).A +
                (findLongestMatch m alo ahi blo bhi).Size < ahi ∧
              (findLongestMatch m alo ahi blo bhi).B +
                (findLongestMatch m alo ahi blo bhi).Size < bhi
          · rw [if_pos hr] at h ⊢
            exact ih _ _ _ _ _ _ h
          · rw [if_neg hr] at h ⊢
            exact h
      · rw [if_neg hsz] at h ⊢
        exact h

theorem matchBlocksF_add (m : sequenceMatcher) (alo ahi blo bhi : Nat)
    (acc L : List MatchT) : ∀ (d fuel : Nat),
    matchBlocksF m fuel alo ahi blo bhi acc = some L →
    matchBlocksF m (fuel + d) alo ahi blo bhi acc = some L := by
  intro d
  induction d with
  | zero => intro fuel h; exact h
  | succ d ih =>
      intro fuel h
      rw [show fuel + (d + 1) = (fuel + d) + 1 from rfl]
      exact matchBlocksF_mono m _ _ _ _ _ _ _ (ih fuel h)

theorem matchBlocksF_spec (m : sequenceMatcher) : ∀ (fuel alo ahi blo bhi : Nat),
    alo ≤ ahi → blo ≤ bhi → (ahi - alo) + (bhi - blo) < fuel →
    ∃ L, matchBlocksF m fuel alo ahi blo bhi [] = some L ∧
      (∀ bl ∈ L, BlockIn m alo ahi blo bhi bl) ∧
      List.Chain' blockLE L := by
  intro fuel
  induction fuel with
  | zero => intro alo ahi blo bhi _ _ hf; omega
  | succ fuel ih =>
      intro alo ahi blo bhi hA hB hf
      obtain ⟨s1, s2, s3, s4, s5⟩ := findLongestMatch_spec m alo ahi blo bhi hA hB
      simp only [matchBlocksF]
      generalize hmt : findLongestMatch m alo ahi blo bhi = mt at s1 s2 s3 s4 s5 ⊢
      by_cases hsz : 0 < mt.Size
      · rw [if_pos hsz]
        have hmtIn : BlockIn m alo ahi blo bhi mt := ⟨s1, s2, s3, s4, hsz, s5⟩
        by_cases hg : alo < mt.A ∧ blo < mt.B
        · rw [if_pos hg]
          obtain ⟨L1, hL1eq, hL1in, hL1ch⟩ :=
            ih alo mt.A blo mt.B (by omega) (by omega) (by omega)
          rw [hL1eq]
          simp only [Option.some_bind]
          have hL1le : ∀ bl ∈ L1, blockLE bl mt := by
            intro bl hbl
            obtain ⟨c1, c2, c3, c4, c5, c6⟩ := hL1in bl hbl
            exact ⟨c2, c4⟩
          have hL1in' : ∀ bl ∈ L1, BlockIn m alo ahi blo bhi bl := by
            intro bl hbl
            obtain ⟨c1, c2, c3, c4, c5, c6⟩ := hL1in bl hbl
            exact ⟨c1, by omega, c3, by omega, c5, c6⟩
          by_cases hr : mt.A + mt.Size < ahi ∧ mt.B + mt.Size < bhi
          · rw [if_pos hr]
            obtain ⟨L2, hL2eq, hL2in, hL2ch⟩ :=
              ih (mt.A + mt.Size) ahi (mt.B + mt.Size) bhi (by omega) (by omega) (by omega)
            rw [matchBlocksF_acc, hL2eq]
            refine ⟨(L1 ++ [mt]) ++ L2, by simp, ?_, ?_⟩
            · intro bl hbl
              rcases List.mem_append.mp hbl with hbl | hbl
              · rcases List.mem_append.mp hbl with hbl | hbl
                · exact hL1in' bl hbl
                · simp at hbl
                  subst hbl
                  exact hmtIn
              · obtain ⟨c1, c2, c3, c4, c5, c6⟩ := hL2in bl hbl
                exact ⟨by omega, c2, by omega, c4, c5, c6⟩
            · rw [List.chain'_append]
              refine ⟨?_, hL2ch, ?_⟩
              · rw [List.chain'_append]
                refine ⟨hL1ch, by simp, ?_⟩
                intro x hx y hy
                simp at hy
                subst hy
                exact hL1le x (List.mem_of_mem_getLast? hx)
              · intro x hx y hy
                rw [List.getLast?_concat] at hx
                simp at hx
                subst hx
                obtain ⟨c1, c2, c3, c4, c5, c6⟩ := hL2in y (List.mem_of_mem_head? hy)
                exact ⟨c1, c3⟩
          · rw [if_neg hr]
            refine ⟨L1 ++ [mt], rfl, ?_, ?_⟩
            · intro bl hbl
              rcases List.mem_append.mp hbl with hbl | hbl
              · exact hL1in' bl hbl
              · simp at hbl
                subst hbl
                exact hmtIn
            · rw [List.chain'_append]
              refine ⟨hL1ch, by simp, ?_⟩
              intro x hx y hy
              simp at hy
              subst hy
              exact hL1le x (List.mem_of_mem_getLast? hx)
        · rw [if_neg hg]
          simp only [Option.some_bind]
          by_cases hr : mt.A + mt.Size < ahi ∧ mt.B + mt.Size < bhi
          · rw [if_pos hr]
            obtain ⟨L2, hL2eq, hL2in, hL2ch⟩ :=
              ih (mt.A + mt.Size) ahi (mt.B + mt.Size) bhi (by omega) (by omega) (by omega)
            rw [matchBlocksF_acc, hL2eq]
            refine ⟨([] ++ [mt]) ++ L2, by simp, ?_, ?_⟩
            · intro bl hbl
              rcases List.mem_append.mp hbl with hbl | hbl
              · simp at hbl
                subst hbl
                exact hmtIn
              · obtain ⟨c1, c2, c3, c4, c5, c6⟩ := hL2in bl hbl
                exact ⟨by omega, c2, by omega, c4, c5, c6⟩
            · rw [List.chain'_append]
              refine ⟨by simp, hL2ch, ?_⟩
              intro x hx y hy
              rw [List.getLast?_concat] at hx
              simp at hx
              subst hx
              obtain ⟨c1, c2, c3, c4, c5, c6⟩ := hL2in y (List.mem_of_mem_head? hy)
              exact ⟨c1, c3⟩
          · rw [if_neg hr]
            refine ⟨[] ++ [mt], rfl, ?_, by simp⟩
            intro bl hbl
            simp at hbl
            subst hbl
            exact hmtIn
      · rw [if_neg hsz]
        exact ⟨[], rfl, by simp, by simp⟩

/-- C5: `Histogram` is total.  The divide-and-conquer recursion of
`getMatchingBlocks` (`matchBlocksF`) succeeds within fuel
`len(old lines) + len(new lines) + 1` — the fuel `getMatchingBlocks`
supplies — and the result is stable under any larger fuel, so the
unbounded Go recursion terminates; consequently `Histogram` returns a
`DiffLine` list on every pair of input strings. -/
theorem C5_histogram_total (old new : String) (fuel : Nat)
    (hfuel : (splitLines old).length + (splitLines new).length < fuel) :
    (∃ bs, matchBlocksF (newMatcher (splitLines old) (splitLines new))
        ((splitLines old).length + (splitLines new).length + 1)
        0 (splitLines old).length 0 (splitLines new).length [] = some bs ∧
      matchBlocksF (newMatcher (splitLines old) (splitLines new)) fuel
        0 (splitLines old).length 0 (splitLines new).length [] = some bs) ∧
    ∃ r : List DiffLine, Histogram old new = r := by
  constructor
  · obtain ⟨L, hL, _, _⟩ := matchBlocksF_spec (newMatcher (splitLines old) (splitLines new))
      ((splitLines old).length + (splitLines new).length + 1)
      0 (splitLines old).length 0 (splitLines new).length
      (by omega) (by omega) (by omega)
    refine ⟨L, hL, ?_⟩
    have hsplit : fuel = ((splitLines old).length + (splitLines new).length + 1) +
        (fuel - ((splitLines old).length + (splitLines new).length + 1)) := by omega
    rw [hsplit]
    exact matchBlocksF_add _ _ _ _ _ _ _ _ _ hL
  · exact ⟨Histogram old new, rfl⟩

/-- Witness for C5 at `old = "a"`, `new = "b"`, fuel 3. -/
theorem C5_histogram_total_witness :
    ((splitLines "a").length + (splitLines "b").length < 3) ∧
    ((∃ bs, matchBlocksF (newMatcher (splitLines "a") (splitLines "b"))
        ((splitLines "a").length + (splitLines "b").length + 1)
        0 (splitLines "a").length 0 (splitLines "b").length [] = some bs ∧
      matchBlocksF (newMatcher (splitLines "a") (splitLines "b")) 3
        0 (splitLines "a").length 0 (splitLines "b").length [] = some bs) ∧
    ∃ r : List DiffLine, Histogram "a" "b" = r) :=
  ⟨by decide, C5_histogram_total "a" "b" 3 (by decide)⟩

/-! ### Collapse loop and cursor chains -/

/-- The opcode cursor can walk the block list: each block starts at or after
the current cursor in both sequences. -/
def CursorChain : Nat → Nat → List MatchT → Prop
  | _, _, [] => True
  | i, j, bl :: bs => i ≤ bl.A ∧ j ≤ bl.B ∧ CursorChain (bl.A + bl.Size) (bl.B + bl.Size) bs

/-- The old-side cursor position after walking the block list. -/
def finalA : Nat → List MatchT → Nat
  | i, [] => i
  | _, bl :: bs => finalA (bl.A + bl.Size) bs

/-- The new-side cursor position after walking the block list. -/
def finalB : Nat → List MatchT → Nat
  | j, [] => j
  | _, bl :: bs => finalB (bl.B + bl.Size) bs

theorem le_finalA : ∀ (bs : List MatchT) (i j : Nat), CursorChain i j bs → i ≤ finalA i bs := by
  intro bs
  induction bs with
  | nil => intro i j _; exact le_refl i
  | cons bl bs ih =>
      intro i j hc
      obtain ⟨h1, h2, h3⟩ := hc
      have := ih (bl.A + bl.Size) (bl.B + bl.Size) h3
      simp only [finalA]
      omega

theorem le_finalB : ∀ (bs : List MatchT) (i j : Nat), CursorChain i j bs → j ≤ finalB j bs := by
  intro bs
  induction bs with
  | nil => intro i j _; exact le_refl j
  | cons bl bs ih =>
      intro i j hc
      obtain ⟨h1, h2, h3⟩ := hc
      have := ih (bl.A + bl.Size) (bl.B + bl.Size) h3
      simp only [finalB]
      omega

/-- When the pending block is non-empty, the collapse loop emits a first
block with the pending block's start coordinates. -/
theorem collapseLoop_head : ∀ (L : List MatchT) (acc : MatchT), 0 < acc.Size →
    ∃ sz tl, 0 < sz ∧ collapseLoop L acc = ⟨acc.A, acc.B, sz⟩ :: tl := by
  intro L
  induction L with
  | nil =>
      intro acc hacc
      refine ⟨acc.Size, [], hacc, ?_⟩
      simp only [collapseLoop, if_pos hacc]
  | cons bl L ih =>
      intro acc hacc
      simp only [collapseLoop]
      by_cases hadj : acc.A + acc.Size = bl.A ∧ acc.B + acc.Size = bl.B
      · rw [if_pos hadj]
        obtain ⟨sz, tl, hsz, heq⟩ := ih ⟨acc.A, acc.B, acc.Size + bl.Size⟩ (by
          show 0 < acc.Size + bl.Size
          omega)
        exact ⟨sz, tl, hsz, heq⟩
      · rw [if_neg hadj, if_pos hacc]
        exact ⟨acc.Size, collapseLoop L bl, hacc, rfl⟩

/-- Non-adjacency of consecutive collapsed blocks. -/
def nonAdjacent (b1 b2 : MatchT) : Prop :=
  ¬(b1.A + b1.Size = b2.A ∧ b1.B + b1.Size = b2.B)

theorem collapseLoop_spec (m : sequenceMatcher) (la lb : Nat) :
    ∀ (L : List MatchT) (acc : MatchT),
    (∀ bl ∈ L, BlockIn m 0 la 0 lb bl) →
    List.Chain' blockLE (acc :: L) →
    acc.A + acc.Size ≤ la → acc.B + acc.Size ≤ lb →
    (∀ t < acc.Size, m.a.getD (acc.A + t) "" = m.b.getD (acc.B + t) "") →
    (∀ bl ∈ collapseLoop L acc, BlockIn m 0 la 0 lb bl) ∧
    (∀ p q, p ≤ acc.A → q ≤ acc.B → CursorChain p q (collapseLoop L acc)) ∧
    List.Chain' nonAdjacent (collapseLoop L acc) ∧
    List.Chain' blockLE (collapseLoop L acc) := by
  intro L
  induction L with
  | nil =>
      intro acc _ _ hEa hEb hrun
      simp only [collapseLoop]
      by_cases hsz : 0 < acc.Size
      · rw [if_pos hsz]
        refine ⟨?_, ?_, by simp, by simp⟩
        · intro bl hbl
          simp at hbl
          subst hbl
          exact ⟨by omega, hEa, by omega, hEb, hsz, hrun⟩
        · intro p q hp hq
          exact ⟨hp, hq, trivial⟩
      · rw [if_neg hsz]
        exact ⟨by simp, fun p q _ _ => trivial, by simp, by simp⟩
  | cons bl L ih =>
      intro acc hin hch hEa hEb hrun
      have hblin : BlockIn m 0 la 0 lb bl := hin bl (List.mem_cons_self bl L)
      obtain ⟨b1, b2, b3, b4, b5, b6⟩ := hblin
      have hch1 : blockLE acc bl := (List.chain'_cons.mp (by
        have : acc :: bl :: L = acc :: bl :: L := rfl
        exact hch)).1
      have hch2 : List.Chain' blockLE (bl :: L) := (List.chain'_cons.mp hch).2
      obtain ⟨hle1, hle2⟩ := hch1
      simp only [collapseLoop]
      by_cases hadj : acc.A + acc.Size = bl.A ∧ acc.B + acc.Size = bl.B
      · rw [if_pos hadj]
        obtain ⟨hadj1, hadj2⟩ := hadj
        have hch' : List.Chain' blockLE ((⟨acc.A, acc.B, acc.Size + bl.Size⟩ : MatchT) :: L) := by
          rw [List.chain'_cons']
          refine ⟨?_, (List.chain'_cons'.mp hch2).2⟩
          intro y hy
          have hbly := (List.chain'_cons'.mp hch2).1 y hy
          obtain ⟨hz1, hz2⟩ := hbly
          constructor
          · show acc.A + (acc.Size + bl.Size) ≤ y.A
            omega
          · show acc.B + (acc.Size + bl.Size) ≤ y.B
            omega
        have hrec := ih ⟨acc.A, acc.B, acc.Size + bl.Size⟩
          (fun x hx => hin x (List.mem_cons_of_mem bl hx)) hch'
          (by show acc.A + (acc.Size + bl.Size) ≤ la; omega)
          (by show acc.B + (acc.Size + bl.Size) ≤ lb; omega)
          (by
            intro t ht
            have ht' : t < acc.Size + bl.Size := ht
            show m.a.getD (acc.A + t) "" = m.b.getD (acc.B + t) ""
            by_cases htl : t < acc.Size
            · exact hrun t htl
            · have e1 : acc.A + t = bl.A + (t - acc.Size) := by omega
              have e2 : acc.B + t = bl.B + (t - acc.Size) := by omega
              rw [e1, e2]
              exact b6 (t - acc.Size) (by omega))
        exact ⟨hrec.1, fun p q hp hq => hrec.2.1 p q hp hq, hrec.2.2.1, hrec.2.2.2⟩
      · rw [if_neg hadj]
        have hrec := ih bl (fun x hx => hin x (List.mem_cons_of_mem bl hx)) hch2
          b2 b4 b6
        by_cases hsz : 0 < acc.Size
        · rw [if_pos hsz]
          refine ⟨?_, ?_, ?_, ?_⟩
          · intro x hx
            rcases List.mem_cons.mp hx with hx | hx
            · subst hx
              exact ⟨by omega, hEa, by omega, hEb, hsz, hrun⟩
            · exact hrec.1 x hx
          · intro p q hp hq
            refine ⟨hp, hq, ?_⟩
            have hcc := hrec.2.1 (acc.A + acc.Size) (acc.B + acc.Size) (by omega) (by omega)
            exact hcc
          · rw [List.chain'_cons']
            refine ⟨?_, hrec.2.2.1⟩
            intro y hy
            obtain ⟨sz, tl, hsz', heq⟩ := collapseLoop_head L bl b5
            rw [heq] at hy
            simp at hy
            subst hy
            intro hcon
            obtain ⟨hc1, hc2⟩ := hcon
            exact hadj ⟨hc1, hc2⟩
          · rw [List.chain'_cons']
            refine ⟨?_, hrec.2.2.2⟩
            intro y hy
            obtain ⟨sz, tl, hsz', heq⟩ := collapseLoop_head L bl b5
            rw [heq] at hy
            simp at hy
            subst hy
            exact ⟨hle1, hle2⟩
        · rw [if_neg hsz]
          refine ⟨hrec.1, ?_, hrec.2.2.1, hrec.2.2.2⟩
          intro p q hp hq
          exact hrec.2.1 p q (by omega) (by omega)

/-! ### `getMatchingBlocks` specification and claim C4 -/

theorem cursorChain_append_sentinel : ∀ (xs : List MatchT) (c d : Nat) (sent : MatchT),
    CursorChain c d xs → finalA c xs ≤ sent.A → finalB d xs ≤ sent.B →
    CursorChain c d (xs ++ [sent]) := by
  intro xs
  induction xs with
  | nil =>
      intro c d sent _ hA hB
      exact ⟨hA, hB, trivial⟩
  | cons bl xs ih =>
      intro c d sent hcc hA hB
      obtain ⟨h1, h2, h3⟩ := hcc
      exact ⟨h1, h2, ih _ _ sent h3 hA hB⟩

theorem finalA_le : ∀ (xs : List MatchT) (c la : Nat),
    (∀ bl ∈ xs, bl.A + bl.Size ≤ la) → c ≤ la → finalA c xs ≤ la := by
  intro xs
  induction xs with
  | nil => intro c la _ hc; exact hc
  | cons bl xs ih =>
      intro c la hin hc
      simp only [finalA]
      exact ih _ la (fun x hx => hin x (List.mem_cons_of_mem bl hx))
        (hin bl (List.mem_cons_self bl xs))

theorem finalB_le : ∀ (xs : List MatchT) (d lb : Nat),
    (∀ bl ∈ xs, bl.B + bl.Size ≤ lb) → d ≤ lb → finalB d xs ≤ lb := by
  intro xs
  induction xs with
  | nil => intro d lb _ hd; exact hd
  | cons bl xs ih =>
      intro d lb hin hd
      simp only [finalB]
      exact ih _ lb (fun x hx => hin x (List.mem_cons_of_mem bl hx))
        (hin bl (List.mem_cons_self bl xs))

theorem getMatchingBlocks_spec (a b : List String) :
    ∃ body, getMatchingBlocks (newMatcher a b) =
        body ++ [⟨a.length, b.length, 0⟩] ∧
      (∀ bl ∈ body, BlockIn (newMatcher a b) 0 a.length 0 b.length bl) ∧
      CursorChain 0 0 (body ++ [⟨a.length, b.length, 0⟩]) ∧
      List.Chain' blockLE (body ++ [⟨a.length, b.length, 0⟩]) ∧
      List.Chain' nonAdjacent body := by
  obtain ⟨L, hLeq, hLin, hLch⟩ := matchBlocksF_spec (newMatcher a b)
    (a.length + b.length + 1) 0 a.length 0 b.length (by omega) (by omega) (by omega)
  have hunf : getMatchingBlocks (newMatcher a b) =
      collapseLoop L ⟨0, 0, 0⟩ ++ [⟨a.length, b.length, 0⟩] := by
    unfold getMatchingBlocks
    have hm : matchBlocksF (newMatcher a b)
        ((newMatcher a b).a.length + (newMatcher a b).b.length + 1)
        0 (newMatcher a b).a.length 0 (newMatcher a b).b.length [] = some L := hLeq
    rw [hm]
    rfl
  have hch0 : List.Chain' blockLE ((⟨0, 0, 0⟩ : MatchT) :: L) := by
    rw [List.chain'_cons']
    refine ⟨?_, hLch⟩
    intro y _
    constructor
    · show 0 + 0 ≤ y.A
      omega
    · show 0 + 0 ≤ y.B
      omega
  have hcol := collapseLoop_spec (newMatcher a b) a.length b.length L ⟨0, 0, 0⟩
    hLin hch0 (by show 0 + 0 ≤ a.length; omega) (by show 0 + 0 ≤ b.length; omega)
    (by intro t ht; exact absurd ht (by
      have : ((⟨0, 0, 0⟩ : MatchT)).Size = 0 := rfl
      omega))
  obtain ⟨hin, hcc, hnadj, hble⟩ := hcol
  refine ⟨collapseLoop L ⟨0, 0, 0⟩, hunf, hin, ?_, ?_, hnadj⟩
  · apply cursorChain_append_sentinel _ _ _ _ (hcc 0 0 (by omega) (by omega))
    · exact finalA_le _ 0 a.length (fun bl hbl => (hin bl hbl).2.1) (by omega)
    · exact finalB_le _ 0 b.length (fun bl hbl => (hin bl hbl).2.2.2.1) (by omega)
  · rw [List.chain'_append]
    refine ⟨hble, by simp, ?_⟩
    intro x hx y hy
    simp at hy
    subst hy
    have hxmem := List.mem_of_mem_getLast? hx
    obtain ⟨c1, c2, c3, c4, c5, c6⟩ := hin x hxmem
    exact ⟨c2, c4⟩

theorem chain'_append_singleton_imp {R S : MatchT → MatchT → Prop}
    (P : MatchT → Prop) (himp : ∀ u v, P u → R u v → S u v) :
    ∀ (l : List MatchT) (x : MatchT), (∀ bl ∈ l, P bl) →
    List.Chain' R (l ++ [x]) → List.Chain' S (l ++ [x]) := by
  intro l
  induction l with
  | nil => intro x _ _; simp
  | cons u rest ih =>
      intro x hP hch
      rw [List.cons_append, List.chain'_cons'] at hch ⊢
      obtain ⟨hhead, htail⟩ := hch
      refine ⟨?_, ih x (fun bl hbl => hP bl (List.mem_cons_of_mem u hbl)) htail⟩
      intro y hy
      exact himp u y (hP u (List.mem_cons_self u rest)) (hhead y hy)

/-- C4: `getMatchingBlocks` returns blocks that are strictly ordered and
non-overlapping in both sequences, each one a run of pairwise-equal lines;
no two consecutive blocks are adjacent in both sequences (such blocks were
merged), and the final element is the zero-length sentinel
`(len(A), len(B), 0)`. -/
theorem C4_matching_blocks (a b : List String) :
    ∃ body, getMatchingBlocks (newMatcher a b) =
        body ++ [⟨a.length, b.length, 0⟩] ∧
      (∀ bl ∈ body, 0 < bl.Size ∧ bl.A + bl.Size ≤ a.length ∧
        bl.B + bl.Size ≤ b.length ∧
        ∀ t < bl.Size, a.getD (bl.A + t) "" = b.getD (bl.B + t) "") ∧
      List.Chain' (fun b1 b2 => b1.A + b1.Size ≤ b2.A ∧ b1.B + b1.Size ≤ b2.B ∧
        b1.A < b2.A ∧ b1.B < b2.B) (body ++ [⟨a.length, b.length, 0⟩]) ∧
      List.Chain' (fun b1 b2 => ¬(b1.A + b1.Size = b2.A ∧ b1.B + b1.Size = b2.B))
        body := by
  obtain ⟨body, heq, hin, hcc, hble, hnadj⟩ := getMatchingBlocks_spec a b
  refine ⟨body, heq, ?_, ?_, hnadj⟩
  · intro bl hbl
    obtain ⟨c1, c2, c3, c4, c5, c6⟩ := hin bl hbl
    exact ⟨c5, c2, c4, c6⟩
  · refine chain'_append_singleton_imp (fun u => 0 < u.Size) ?_ body _
      (fun bl hbl => (hin bl hbl).2.2.2.2.1) hble
    intro u v hu huv
    obtain ⟨h1, h2⟩ := huv
    exact ⟨h1, h2, by omega, by omega⟩

/-! ### Rendering opcodes: claim C1 -/

theorem slice_append {α : Type} (l : List α) (i mid e : Nat)
    (h1 : i ≤ mid) (h2 : mid ≤ e) :
    (l.drop i).take (mid - i) ++ (l.drop mid).take (e - mid) =
      (l.drop i).take (e - i) := by
  have he : e - i = (mid - i) + (e - mid) := by omega
  rw [he, List.take_add, List.drop_drop]
  have hm : i + (mid - i) = mid := by omega
  rw [hm]

theorem filter_map_all {α β : Type} (f : α → β) (p : β → Bool) (l : List α)
    (h : ∀ x ∈ l, p (f x) = true) : (l.map f).filter p = l.map f := by
  rw [List.filter_eq_self]
  intro y hy
  rcases List.mem_map.mp hy with ⟨x, hx, rfl⟩
  exact h x hx

theorem filter_map_none {α β : Type} (f : α → β) (p : β → Bool) (l : List α)
    (h : ∀ x ∈ l, p (f x) = false) : (l.map f).filter p = [] := by
  rw [List.filter_eq_nil_iff]
  intro y hy
  rcases List.mem_map.mp hy with ⟨x, hx, rfl⟩
  simp [h x hx]

/-- The rendering loop of `Histogram` over a list of opcodes. -/
def renderOps (ol nl : List String) (ops : List opCode) : List DiffLine :=
  (ops.map (processOp ol nl)).flatten

theorem renderOps_append (ol nl : List String) (xs ys : List opCode) :
    renderOps ol nl (xs ++ ys) = renderOps ol nl xs ++ renderOps ol nl ys := by
  simp [renderOps]

theorem renderOps_nil (ol nl : List String) : renderOps ol nl [] = [] := rfl

theorem renderOps_singleton (ol nl : List String) (op : opCode) :
    renderOps ol nl [op] = processOp ol nl op := by
  simp [renderOps]

theorem processOp_equal (ol nl : List String) (I1 I2 J1 J2 : Nat) :
    processOp ol nl ⟨opEqual, I1, I2, J1, J2⟩ =
      (List.range' I1 (I2 - I1)).map (fun i =>
        { OldNumber := i + 1, NewNumber := i + J1 - I1 + 1,
          Line := ol.getD i "", Kind := DiffShared }) := by
  simp [processOp, opEqual]

theorem processOp_delete (ol nl : List String) (I1 I2 J1 J2 : Nat) :
    processOp ol nl ⟨opDelete, I1, I2, J1, J2⟩ =
      (List.range' I1 (I2 - I1)).map (fun i =>
        { OldNumber := i + 1, NewNumber := 0,
          Line := ol.getD i "", Kind := DiffOld }) := by
  simp [processOp, opEqual, opDelete]

theorem processOp_insert (ol nl : List String) (I1 I2 J1 J2 : Nat) :
    processOp ol nl ⟨opInsert, I1, I2, J1, J2⟩ =
      (List.range' J1 (J2 - J1)).map (fun j =>
        { OldNumber := 0, NewNumber := j + 1,
          Line := nl.getD j "", Kind := DiffNew }) := by
  simp [processOp, opEqual, opDelete, opInsert]

theorem processOp_replace (ol nl : List String) (I1 I2 J1 J2 : Nat) :
    processOp ol nl ⟨opReplace, I1, I2, J1, J2⟩ =
      (List.range' I1 (I2 - I1)).map (fun i =>
        { OldNumber := i + 1, NewNumber := 0,
          Line := ol.getD i "", Kind := DiffOld }) ++
      (List.range' J1 (J2 - J1)).map (fun j =>
        { OldNumber := 0, NewNumber := j + 1,
          Line := nl.getD j "", Kind := DiffNew }) := by
  simp [processOp, opEqual, opDelete, opInsert, opReplace]

theorem mkOld_oldSide (ol : List String) (I1 n : Nat) (h : I1 + n ≤ ol.length) :
    (((List.range' I1 n).map (fun i =>
        ({ OldNumber := i + 1, NewNumber := 0, Line := ol.getD i "",
           Kind := DiffOld } : DiffLine))).filter
      (fun d => d.Kind ≠ DiffNew)).map DiffLine.Line = (ol.drop I1).take n := by
  rw [filter_map_all _ _ _ (fun x _ => rfl), List.map_map]
  have : (DiffLine.Line ∘ fun i =>
      ({ OldNumber := i + 1, NewNumber := 0, Line := ol.getD i "",
         Kind := DiffOld } : DiffLine)) = fun i => ol.getD i "" := rfl
  rw [this]
  exact range'_map_getD "" n I1 ol h

theorem mkOld_newSide (ol : List String) (I1 n : Nat) :
    (((List.range' I1 n).map (fun i =>
        ({ OldNumber := i + 1, NewNumber := 0, Line := ol.getD i "",
           Kind := DiffOld } : DiffLine))).filter
      (fun d => d.Kind ≠ DiffOld)).map DiffLine.Line = [] := by
  rw [filter_map_none _ _ _ (fun x _ => rfl)]
  rfl

theorem mkNew_newSide (nl : List String) (J1 n : Nat) (h : J1 + n ≤ nl.length) :
    (((List.range' J1 n).map (fun j =>
        ({ OldNumber := 0, NewNumber := j + 1, Line := nl.getD j "",
           Kind := DiffNew } : DiffLine))).filter
      (fun d => d.Kind ≠ DiffOld)).map DiffLine.Line = (nl.drop J1).take n := by
  rw [filter_map_all _ _ _ (fun x _ => rfl), List.map_map]
  have : (DiffLine.Line ∘ fun j =>
      ({ OldNumber := 0, NewNumber := j + 1, Line := nl.getD j "",
         Kind := DiffNew } : DiffLine)) = fun j => nl.getD j "" := rfl
  rw [this]
  exact range'_map_getD "" n J1 nl h

theorem mkNew_oldSide (nl : List String) (J1 n : Nat) :
    (((List.range' J1 n).map (fun j =>
        ({ OldNumber := 0, NewNumber := j + 1, Line := nl.getD j "",
           Kind := DiffNew } : DiffLine))).filter
      (fun d => d.Kind ≠ DiffNew)).map DiffLine.Line = [] := by
  rw [filter_map_none _ _ _ (fun x _ => rfl)]
  rfl

theorem mkShared_oldSide (ol : List String) (I1 J1 n : Nat) (h : I1 + n ≤ ol.length) :
    (((List.range' I1 n).map (fun i =>
        ({ OldNumber := i + 1, NewNumber := i + J1 - I1 + 1, Line := ol.getD i "",
           Kind := DiffShared } : DiffLine))).filter
      (fun d => d.Kind ≠ DiffNew)).map DiffLine.Line = (ol.drop I1).take n := by
  rw [filter_map_all _ _ _ (fun x _ => rfl), List.map_map]
  have : (DiffLine.Line ∘ fun i =>
      ({ OldNumber := i + 1, NewNumber := i + J1 - I1 + 1, Line := ol.getD i "",
         Kind := DiffShared } : DiffLine)) = fun i => ol.getD i "" := rfl
  rw [this]
  exact range'_map_getD "" n I1 ol h

theorem mkShared_newSide (ol nl : List String) (I1 J1 n : Nat)
    (hn : J1 + n ≤ nl.length)
    (hrun : ∀ t < n, ol.getD (I1 + t) "" = nl.getD (J1 + t) "") :
    (((List.range' I1 n).map (fun i =>
        ({ OldNumber := i + 1, NewNumber := i + J1 - I1 + 1, Line := ol.getD i "",
           Kind := DiffShared } : DiffLine))).filter
      (fun d => d.Kind ≠ DiffOld)).map DiffLine.Line = (nl.drop J1).take n := by
  rw [filter_map_all _ _ _ (fun x _ => rfl), List.map_map]
  have hcomp : (DiffLine.Line ∘ fun i =>
      ({ OldNumber := i + 1, NewNumber := i + J1 - I1 + 1, Line := ol.getD i "",
         Kind := DiffShared } : DiffLine)) = fun i => ol.getD i "" := rfl
  rw [hcomp]
  rw [List.range'_eq_map_range, List.map_map]
  have hcong : (List.range n).map ((fun i => ol.getD i "") ∘ (I1 + ·)) =
      (List.range n).map ((fun j => nl.getD j "") ∘ (J1 + ·)) := by
    apply List.map_congr_left
    intro t ht
    simp only [Function.comp]
    exact hrun t (List.mem_range.mp ht)
  rw [hcong, ← List.map_map, ← List.range'_eq_map_range]
  exact range'_map_getD "" n J1 nl hn

theorem slice3 {α : Type} (l : List α) (i mid n e : Nat)
    (h1 : i ≤ mid) (h2 : mid + n ≤ e) :
    (l.drop i).take (mid - i) ++
      ((l.drop mid).take n ++ (l.drop (mid + n)).take (e - (mid + n))) =
      (l.drop i).take (e - i) := by
  have hn : (l.drop mid).take n = (l.drop mid).take ((mid + n) - mid) := by
    congr 1
    omega
  rw [hn, slice_append l mid (mid + n) e (by omega) h2,
    slice_append l i mid e h1 (by omega)]

theorem opLoop_cons (bl : MatchT) (bs : List MatchT) (i j : Nat) :
    opLoop (bl :: bs) i j =
      (if 0 < (if i < bl.A ∧ j < bl.B then opReplace
          else if i < bl.A then opDelete
          else if j < bl.B then opInsert else 0) then
        [⟨(if i < bl.A ∧ j < bl.B then opReplace
          else if i < bl.A then opDelete
          else if j < bl.B then opInsert else 0), i, bl.A, j, bl.B⟩] else []) ++
      ((if 0 < bl.Size then
        [⟨opEqual, bl.A, bl.A + bl.Size, bl.B, bl.B + bl.Size⟩] else []) ++
      opLoop bs (bl.A + bl.Size) (bl.B + bl.Size)) := by
  simp only [opLoop, List.append_assoc]

theorem renderOps_spec (ol nl : List String) : ∀ (bs : List MatchT) (i j : Nat),
    CursorChain i j bs →
    (∀ bl ∈ bs, bl.A + bl.Size ≤ ol.length ∧ bl.B + bl.Size ≤ nl.length ∧
      ∀ t < bl.Size, ol.getD (bl.A + t) "" = nl.getD (bl.B + t) "") →
    ((renderOps ol nl (opLoop bs i j)).filter
        (fun d => d.Kind ≠ DiffNew)).map DiffLine.Line =
      (ol.drop i).take (finalA i bs - i) ∧
    ((renderOps ol nl (opLoop bs i j)).filter
        (fun d => d.Kind ≠ DiffOld)).map DiffLine.Line =
      (nl.drop j).take (finalB j bs - j) := by
  intro bs
  induction bs with
  | nil =>
      intro i j _ _
      constructor <;> simp [renderOps, opLoop, finalA, finalB]
  | cons bl bs ih =>
      intro i j hcc hok
      obtain ⟨hiA, hjB, hcc'⟩ := hcc
      obtain ⟨hA, hB, hrun⟩ := hok bl (List.mem_cons_self bl bs)
      have ihr := ih (bl.A + bl.Size) (bl.B + bl.Size) hcc'
        (fun x hx => hok x (List.mem_cons_of_mem bl hx))
      have hfinA := le_finalA bs (bl.A + bl.Size) (bl.B + bl.Size) hcc'
      have hfinB := le_finalB bs (bl.A + bl.Size) (bl.B + bl.Size) hcc'
      have hEold : ((renderOps ol nl (if 0 < bl.Size then
          [⟨opEqual, bl.A, bl.A + bl.Size, bl.B, bl.B + bl.Size⟩] else [])).filter
          (fun d => d.Kind ≠ DiffNew)).map DiffLine.Line =
          (ol.drop bl.A).take bl.Size := by
        by_cases hS : 0 < bl.Size
        · rw [if_pos hS, renderOps_singleton]
          have hEeq : processOp ol nl ⟨opEqual, bl.A, bl.A + bl.Size, bl.B, bl.B + bl.Size⟩ =
              (List.range' bl.A bl.Size).map (fun i' =>
                { OldNumber := i' + 1, NewNumber := i' + bl.B - bl.A + 1,
                  Line := ol.getD i' "", Kind := DiffShared }) := by
            have harg : bl.A + bl.Size - bl.A = bl.Size := by omega
            rw [processOp_equal, harg]
          rw [hEeq]
          exact mkShared_oldSide ol bl.A bl.B bl.Size (by omega)
        · rw [if_neg hS, renderOps_nil]
          have h0 : bl.Size = 0 := by omega
          rw [h0]
          rfl
      have hEnew : ((renderOps ol nl (if 0 < bl.Size then
          [⟨opEqual, bl.A, bl.A + bl.Size, bl.B, bl.B + bl.Size⟩] else [])).filter
          (fun d => d.Kind ≠ DiffOld)).map DiffLine.Line =
          (nl.drop bl.B).take bl.Size := by
        by_cases hS : 0 < bl.Size
        · rw [if_pos hS, renderOps_singleton]
          have hEeq : processOp ol nl ⟨opEqual, bl.A, bl.A + bl.Size, bl.B, bl.B + bl.Size⟩ =
              (List.range' bl.A bl.Size).map (fun i' =>
                { OldNumber := i' + 1, NewNumber := i' + bl.B - bl.A + 1,
                  Line := ol.getD i' "", Kind := DiffShared }) := by
            have harg : bl.A + bl.Size - bl.A = bl.Size := by omega
            rw [processOp_equal, harg]
          rw [hEeq]
          exact mkShared_newSide ol nl bl.A bl.B bl.Size (by omega) hrun
        · rw [if_neg hS, renderOps_nil]
          have h0 : bl.Size = 0 := by omega
          rw [h0]
          rfl
      by_cases hiA' : i < bl.A
      · by_cases hjB' : j < bl.B
        · -- Replace gap
          have hstep : opLoop (bl :: bs) i j = [⟨opReplace, i, bl.A, j, bl.B⟩] ++
              ((if 0 < bl.Size then
                [⟨opEqual, bl.A, bl.A + bl.Size, bl.B, bl.B + bl.Size⟩] else []) ++
              opLoop bs (bl.A + bl.Size) (bl.B + bl.Size)) := by
            rw [opLoop_cons, if_pos (And.intro hiA' hjB'),
              if_pos (show (0 : Nat) < opReplace by decide)]
          have hGold : ((renderOps ol nl [⟨opReplace, i, bl.A, j, bl.B⟩]).filter
              (fun d => d.Kind ≠ DiffNew)).map DiffLine.Line =
              (ol.drop i).take (bl.A - i) := by
            rw [renderOps_singleton, processOp_replace, List.filter_append,
              List.map_append, mkOld_oldSide ol i (bl.A - i) (by omega),
              mkNew_oldSide, List.append_nil]
          have hGnew : ((renderOps ol nl [⟨opReplace, i, bl.A, j, bl.B⟩]).filter
              (fun d => d.Kind ≠ DiffOld)).map DiffLine.Line =
              (nl.drop j).take (bl.B - j) := by
            rw [renderOps_singleton, processOp_replace, List.filter_append,
              List.map_append, mkOld_newSide,
              mkNew_newSide nl j (bl.B - j) (by omega), List.nil_append]
          constructor
          · rw [hstep, renderOps_append, renderOps_append, List.filter_append,
              List.filter_append, List.map_append, List.map_append, hGold, hEold, ihr.1]
            simp only [finalA]
            exact slice3 ol i bl.A bl.Size _ (by omega) (by omega)
          · rw [hstep, renderOps_append, renderOps_append, List.filter_append,
              List.filter_append, List.map_append, List.map_append, hGnew, hEnew, ihr.2]
            simp only [finalB]
            exact slice3 nl j bl.B bl.Size _ (by omega) (by omega)
        · -- Delete gap
          have hjBe : j = bl.B := by omega
          have hstep : opLoop (bl :: bs) i j = [⟨opDelete, i, bl.A, j, bl.B⟩] ++
              ((if 0 < bl.Size then
                [⟨opEqual, bl.A, bl.A + bl.Size, bl.B, bl.B + bl.Size⟩] else []) ++
              opLoop bs (bl.A + bl.Size) (bl.B + bl.Size)) := by
            rw [opLoop_cons, if_neg (show ¬(i < bl.A ∧ j < bl.B) from fun h => hjB' h.2),
              if_pos hiA', if_pos (show (0 : Nat) < opDelete by decide)]
          have hGold : ((renderOps ol nl [⟨opDelete, i, bl.A, j, bl.B⟩]).filter
              (fun d => d.Kind ≠ DiffNew)).map DiffLine.Line =
              (ol.drop i).take (bl.A - i) := by
            rw [renderOps_singleton, processOp_delete,
              mkOld_oldSide ol i (bl.A - i) (by omega)]
          have hGnew : ((renderOps ol nl [⟨opDelete, i, bl.A, j, bl.B⟩]).filter
              (fun d => d.Kind ≠ DiffOld)).map DiffLine.Line =
              (nl.drop j).take (bl.B - j) := by
            rw [renderOps_singleton, processOp_delete, mkOld_newSide,
              show bl.B - j = 0 from by omega, List.take_zero]
          constructor
          · rw [hstep, renderOps_append, renderOps_append, List.filter_append,
              List.filter_append, List.map_append, List.map_append, hGold, hEold, ihr.1]
            simp only [finalA]
            exact slice3 ol i bl.A bl.Size _ (by omega) (by omega)
          · rw [hstep, renderOps_append, renderOps_append, List.filter_append,
              List.filter_append, List.map_append, List.map_append, hGnew, hEnew, ihr.2]
            simp only [finalB]
            exact slice3 nl j bl.B bl.Size _ (by omega) (by omega)
      · by_cases hjB' : j < bl.B
        · -- Insert gap
          have hiAe : i = bl.A := by omega
          have hstep : opLoop (bl :: bs) i j = [⟨opInsert, i, bl.A, j, bl.B⟩] ++
              ((if 0 < bl.Size then
                [⟨opEqual, bl.A, bl.A + bl.Size, bl.B, bl.B + bl.Size⟩] else []) ++
              opLoop bs (bl.A + bl.Size) (bl.B + bl.Size)) := by
            rw [opLoop_cons, if_neg (show ¬(i < bl.A ∧ j < bl.B) from fun h => hiA' h.1),
              if_neg hiA', if_pos hjB', if_pos (show (0 : Nat) < opInsert by decide)]
          have hGold : ((renderOps ol nl [⟨opInsert, i, bl.A, j, bl.B⟩]).filter
              (fun d => d.Kind ≠ DiffNew)).map DiffLine.Line =
              (ol.drop i).take (bl.A - i) := by
            rw [renderOps_singleton, processOp_insert, mkNew_oldSide,
              show bl.A - i = 0 from by omega, List.take_zero]
          have hGnew : ((renderOps ol nl [⟨opInsert, i, bl.A, j, bl.B⟩]).filter
              (fun d => d.Kind ≠ DiffOld)).map DiffLine.Line =
              (nl.drop j).take (bl.B - j) := by
            rw [renderOps_singleton, processOp_insert,
              mkNew_newSide nl j (bl.B - j) (by omega)]
          constructor
          · rw [hstep, renderOps_append, renderOps_append, List.filter_append,
              List.filter_append, List.map_append, List.map_append, hGold, hEold, ihr.1]
            simp only [finalA]
            exact slice3 ol i bl.A bl.Size _ (by omega) (by omega)
          · rw [hstep, renderOps_append, renderOps_append, List.filter_append,
              List.filter_append, List.map_append, List.map_append, hGnew, hEnew, ihr.2]
            simp only [finalB]
            exact slice3 nl j bl.B bl.Size _ (by omega) (by omega)
        · -- No gap
          have hiAe : i = bl.A := by omega
          have hjBe : j = bl.B := by omega
          have hstep : opLoop (bl :: bs) i j = [] ++
              ((if 0 < bl.Size then
                [⟨opEqual, bl.A, bl.A + bl.Size, bl.B, bl.B + bl.Size⟩] else []) ++
              opLoop bs (bl.A + bl.Size) (bl.B + bl.Size)) := by
            rw [opLoop_cons, if_neg (show ¬(i < bl.A ∧ j < bl.B) from fun h => hiA' h.1),
              if_neg hiA', if_neg hjB']
            rw [if_neg (show ¬((0 : Nat) < 0) from by omega)]
          have hGold : ((renderOps ol nl ([] : List opCode)).filter
              (fun d => d.Kind ≠ DiffNew)).map DiffLine.Line =
              (ol.drop i).take (bl.A - i) := by
            rw [renderOps_nil, show bl.A - i = 0 from by omega, List.take_zero]
            rfl
          have hGnew : ((renderOps ol nl ([] : List opCode)).filter
              (fun d => d.Kind ≠ DiffOld)).map DiffLine.Line =
              (nl.drop j).take (bl.B - j) := by
            rw [renderOps_nil, show bl.B - j = 0 from by omega, List.take_zero]
            rfl
          constructor
          · rw [hstep, renderOps_append, renderOps_append, List.filter_append,
              List.filter_append, List.map_append, List.map_append, hGold, hEold, ihr.1]
            simp only [finalA]
            exact slice3 ol i bl.A bl.Size _ (by omega) (by omega)
          · rw [hstep, renderOps_append, renderOps_append, List.filter_append,
              List.filter_append, List.map_append, List.map_append, hGnew, hEnew, ihr.2]
            simp only [finalB]
            exact slice3 nl j bl.B bl.Size _ (by omega) (by omega)

theorem finalA_append_singleton : ∀ (xs : List MatchT) (c : Nat) (x : MatchT),
    finalA c (xs ++ [x]) = x.A + x.Size := by
  intro xs
  induction xs with
  | nil => intro c x; rfl
  | cons bl xs ih => intro c x; exact ih _ x

theorem finalB_append_singleton : ∀ (xs : List MatchT) (c : Nat) (x : MatchT),
    finalB c (xs ++ [x]) = x.B + x.Size := by
  intro xs
  induction xs with
  | nil => intro c x; rfl
  | cons bl xs ih => intro c x; exact ih _ x

/-- C1: in `Histogram(old, new)`, the contents of the Shared and Deleted
entries, in output order, are exactly the line sequence of `old`, and the
contents of the Shared and Added entries, in output order, are exactly the
line sequence of `new` (so each old line occurs exactly once as Shared or
Deleted, each new line exactly once as Shared or Added). -/
theorem C1_partition (old new : String) :
    ((Histogram old new).filter (fun d => d.Kind ≠ DiffNew)).map DiffLine.Line =
      splitLines old ∧
    ((Histogram old new).filter (fun d => d.Kind ≠ DiffOld)).map DiffLine.Line =
      splitLines new := by
  obtain ⟨body, heq, hin, hcc, hble, hnadj⟩ :=
    getMatchingBlocks_spec (splitLines old) (splitLines new)
  have hH : Histogram old new =
      renderOps (splitLines old) (splitLines new)
        (opLoop (getMatchingBlocks (newMatcher (splitLines old) (splitLines new))) 0 0) := rfl
  rw [hH, heq]
  have hok : ∀ bl ∈ body ++ [(⟨(splitLines old).length, (splitLines new).length, 0⟩ : MatchT)],
      bl.A + bl.Size ≤ (splitLines old).length ∧
      bl.B + bl.Size ≤ (splitLines new).length ∧
      ∀ t < bl.Size, (splitLines old).getD (bl.A + t) "" =
        (splitLines new).getD (bl.B + t) "" := by
    intro bl hbl
    rcases List.mem_append.mp hbl with hbl | hbl
    · obtain ⟨c1, c2, c3, c4, c5, c6⟩ := hin bl hbl
      exact ⟨c2, c4, c6⟩
    · simp at hbl
      subst hbl
      refine ⟨?_, ?_, ?_⟩
      · show (splitLines old).length + 0 ≤ (splitLines old).length
        omega
      · show (splitLines new).length + 0 ≤ (splitLines new).length
        omega
      · intro t ht
        have ht' : t < 0 := ht
        omega
  have hspec := renderOps_spec (splitLines old) (splitLines new)
    (body ++ [⟨(splitLines old).length, (splitLines new).length, 0⟩]) 0 0 hcc hok
  rw [finalA_append_singleton, finalB_append_singleton] at hspec
  constructor
  · rw [hspec.1]
    show ((splitLines old).drop 0).take ((⟨(splitLines old).length,
      (splitLines new).length, 0⟩ : MatchT).A + 0 - 0) = splitLines old
    simp
  · rw [hspec.2]
    show ((splitLines new).drop 0).take ((⟨(splitLines old).length,
      (splitLines new).length, 0⟩ : MatchT).B + 0 - 0) = splitLines new
    simp

/-! ### The identity case: `Histogram(s, s)` -/

/-- Position `j` of `b` survives the junk/popular purge (its value is still
indexed). -/
def keepPos (m : sequenceMatcher) (j : Nat) : Prop :=
  j ∈ b2j m (m.b.getD j "")

instance (m : sequenceMatcher) (j : Nat) : Decidable (keepPos m j) := by
  unfold keepPos
  infer_instance

theorem mem_b2j_of (m : sequenceMatcher) (v : String) (j : Nat)
    (hne : b2j m v ≠ []) (hj : j < m.b.length) (hv : m.b.getD j "" = v) :
    j ∈ b2j m v := by
  rcases b2j_eq_or m v with he | he
  · exact absurd he hne
  · rw [he]
    exact (mem_posFrom _ _ _ _).mpr ⟨j, hj, by omega, hv⟩

theorem keep_of_mem (m : sequenceMatcher) (v : String) (j : Nat)
    (h : j ∈ b2j m v) : keepPos m j := by
  have hm := mem_b2j m v j h
  unfold keepPos
  rw [hm.2]
  exact h

/-- Length of the maximal run of kept positions `≥ alo` ending at `j`. -/
def dlen (m : sequenceMatcher) (alo : Nat) : Nat → Nat
  | 0 => if alo ≤ 0 ∧ keepPos m 0 then 1 else 0
  | j + 1 => if alo ≤ j + 1 ∧ keepPos m (j + 1) then dlen m alo j + 1 else 0

theorem dlen_le (m : sequenceMatcher) (alo : Nat) : ∀ j, dlen m alo j ≤ j + 1 - alo := by
  intro j
  induction j with
  | zero =>
      simp only [dlen]
      split
      · rename_i h
        omega
      · omega
  | succ j ih =>
      simp only [dlen]
      split
      · rename_i h
        omega
      · omega

theorem dlen_pos (m : sequenceMatcher) (alo j : Nat) (h1 : alo ≤ j)
    (h2 : keepPos m j) : 0 < dlen m alo j := by
  cases j with
  | zero => simp only [dlen, if_pos (And.intro h1 h2)]; omega
  | succ j => simp only [dlen, if_pos (And.intro h1 h2)]; omega

theorem dlen_succ (m : sequenceMatcher) (alo j : Nat) (h1 : alo ≤ j + 1)
    (h2 : keepPos m (j + 1)) : dlen m alo (j + 1) = dlen m alo j + 1 := by
  simp only [dlen, if_pos (And.intro h1 h2)]

theorem dlen_zero_of (m : sequenceMatcher) (alo j : Nat)
    (h : ¬(alo ≤ j ∧ keepPos m j)) : dlen m alo j = 0 := by
  cases j with
  | zero => simp only [dlen, if_neg h]
  | succ j => simp only [dlen, if_neg h]

/-- The row cap on `j2len` entries before processing row `i`. -/
def rowCap (m : sequenceMatcher) (alo i : Nat) : Nat :=
  if i ≤ alo then 0 else dlen m alo (i - 1)

theorem isBJunk_none (m : sequenceMatcher) (hjunk : m.IsJunk = none) (v : String) :
    isBJunk m v = false := by
  unfold isBJunk bJunk
  rw [hjunk]

theorem extendNonJunkBack_self (m : sequenceMatcher) (hab : m.a = m.b)
    (hjunk : m.IsJunk = none) (alo : Nat) :
    ∀ (p s : Nat), alo ≤ p →
    extendNonJunkBack m alo alo p p s = ⟨alo, alo, s + (p - alo)⟩ := by
  intro p
  induction p with
  | zero =>
      intro s hp
      have h0 : alo = 0 := by omega
      subst h0
      rfl
  | succ p ih =>
      intro s hp
      by_cases halo : alo < p + 1
      · simp only [extendNonJunkBack]
        rw [if_pos ⟨halo, halo, isBJunk_none m hjunk _, by
          rw [hab]
          have hps0 : p + 1 - 1 = p := by omega
          rw [hps0]⟩]
        have hps : (p + 1) - 1 = p := by omega
        rw [hps, ih (s + 1) (by omega)]
        have he : s + 1 + (p - alo) = s + (p + 1 - alo) := by omega
        rw [he]
      · have he : alo = p + 1 := by omega
        simp only [extendNonJunkBack]
        rw [if_neg (by intro hcon; exact halo hcon.1)]
        have he2 : s + (p + 1 - alo) = s := by omega
        rw [he2, he]

theorem extendNonJunkFwd_self (m : sequenceMatcher) (hab : m.a = m.b)
    (hjunk : m.IsJunk = none) (alo ahi : Nat) :
    ∀ (fuel sz : Nat), alo + sz + fuel = ahi →
    extendNonJunkFwd m ahi ahi alo alo fuel sz = ahi - alo := by
  intro fuel
  induction fuel with
  | zero =>
      intro sz hsz
      show sz = ahi - alo
      omega
  | succ f ih =>
      intro sz hsz
      simp only [extendNonJunkFwd]
      rw [if_pos ⟨by omega, by omega, isBJunk_none m hjunk _, by rw [hab]⟩]
      exact ih (sz + 1) (by omega)

theorem extendJunkBack_self (m : sequenceMatcher) (alo : Nat) (s : Nat) :
    extendJunkBack m alo alo alo alo s = ⟨alo, alo, s⟩ := by
  cases halo : alo with
  | zero => rfl
  | succ q =>
      simp only [extendJunkBack]
      rw [if_neg (by intro hcon; exact absurd hcon.1 (by omega))]

/-- What one row of the identity scan guarantees: the best match is
diagonal and window-bounded, every visited kept diagonal is dominated, and
the fresh map records exactly the diagonal run at `i` and only column-capped
runs. -/
def RowOut (m : sequenceMatcher) (alo i : Nat) (r : (Int → Nat) × MatchT) : Prop :=
  r.2.A = r.2.B ∧ alo ≤ r.2.A ∧ r.2.A + r.2.Size ≤ i + 1 ∧
  (∀ jj : Nat, alo ≤ jj → jj < i → keepPos m jj → dlen m alo jj ≤ r.2.Size) ∧
  dlen m alo i ≤ r.2.Size ∧ r.1 (i : Int) = dlen m alo i ∧
  (∀ x : Int, r.1 x ≠ 0 → ∃ jx : Nat, x = (jx : Int) ∧ alo ≤ jx ∧ keepPos m jx ∧
    r.1 x ≤ dlen m alo jx) ∧
  (∀ x : Int, r.1 x ≤ dlen m alo i)

theorem innerLoop_self (m : sequenceMatcher) (hab : m.a = m.b) (alo ahi i : Nat)
    (hialo : alo ≤ i) (hiahi : i < ahi) (hlen : ahi ≤ m.b.length)
    (hki : keepPos m i) :
    ∀ (js : List Nat) (j2len newj2len : Int → Nat) (best : MatchT),
    (∀ j ∈ js, j ∈ b2j m (m.a.getD i "")) →
    List.Sorted (· < ·) js →
    (i ∈ js ∨ (dlen m alo i ≤ best.Size ∧ newj2len (i : Int) = dlen m alo i)) →
    (∀ x : Int, j2len x ≠ 0 → ∃ jx : Nat, x = (jx : Int) ∧ alo ≤ jx ∧ keepPos m jx ∧
      j2len x ≤ dlen m alo jx) →
    (∀ x : Int, j2len x ≤ rowCap m alo i) →
    (alo < i → keepPos m (i - 1) → j2len ((i : Int) - 1) = dlen m alo (i - 1)) →
    best.A = best.B → alo ≤ best.A → best.A + best.Size ≤ i + 1 →
    (∀ jj : Nat, alo ≤ jj → jj < i → keepPos m jj → dlen m alo jj ≤ best.Size) →
    (∀ x : Int, newj2len x ≠ 0 → ∃ jx : Nat, x = (jx : Int) ∧ alo ≤ jx ∧ keepPos m jx ∧
      newj2len x ≤ dlen m alo jx) →
    (∀ x : Int, newj2len x ≤ dlen m alo i) →
    RowOut m alo i (innerLoop alo ahi i js j2len newj2len best) := by
  intro js
  induction js with
  | nil =>
      intro j2len newj2len best _ _ hdiag hold hcap h5 hAB hA1 hA2 h6 hn3 hn4
      rcases hdiag with hd | ⟨hd1, hd2⟩
      · simp at hd
      · exact ⟨hAB, hA1, hA2, h6, hd1, hd2, hn3, hn4⟩
  | cons j js ih =>
      intro j2len newj2len best hjs hsort hdiag hold hcap h5 hAB hA1 hA2 h6 hn3 hn4
      have hsort' := List.sorted_cons.mp hsort
      simp only [innerLoop]
      by_cases hjlo : j < alo
      · rw [if_pos hjlo]
        apply ih j2len newj2len best (fun x hx => hjs x (List.mem_cons_of_mem j hx))
          hsort'.2 ?_ hold hcap h5 hAB hA1 hA2 h6 hn3 hn4
        rcases hdiag with hd | hd
        · rcases List.mem_cons.mp hd with hd' | hd'
          · omega
          · exact Or.inl hd'
        · exact Or.inr hd
      · rw [if_neg hjlo]
        by_cases hjhi : ahi ≤ j
        · rw [if_pos hjhi]
          have hnotin : ¬(i ∈ j :: js) := by
            intro hmem
            rcases List.mem_cons.mp hmem with hd' | hd'
            · omega
            · have := hsort'.1 i hd'
              omega
          rcases hdiag with hd | ⟨hd1, hd2⟩
          · exact absurd hd hnotin
          · exact ⟨hAB, hA1, hA2, h6, hd1, hd2, hn3, hn4⟩
        · rw [if_neg hjhi]
          have hjmem := hjs j (List.mem_cons_self j js)
          have hjb := mem_b2j m _ j hjmem
          have hkj : keepPos m j := keep_of_mem m _ j hjmem
          have hjalo : alo ≤ j := by omega
          -- k ≤ dlen j
          have hkd : j2len ((j : Int) - 1) + 1 ≤ dlen m alo j := by
            by_cases h0 : j2len ((j : Int) - 1) = 0
            · rw [h0]
              have := dlen_pos m alo j hjalo hkj
              omega
            · obtain ⟨jx, hxe, hxalo, hxkeep, hxle⟩ := hold _ h0
              have hjx : j = jx + 1 := by omega
              subst hjx
              rw [dlen_succ m alo jx (by omega) hkj]
              omega
          -- k ≤ dlen i
          have hkirow : j2len ((j : Int) - 1) + 1 ≤ dlen m alo i := by
            have hc := hcap ((j : Int) - 1)
            by_cases hia : i ≤ alo
            · have hia' : i = alo := by omega
              unfold rowCap at hc
              rw [if_pos (by omega)] at hc
              have := dlen_pos m alo i hialo hki
              omega
            · unfold rowCap at hc
              rw [if_neg (by omega)] at hc
              have hie : i = (i - 1) + 1 := by omega
              have hdi : dlen m alo i = dlen m alo (i - 1) + 1 := by
                conv_lhs => rw [hie]
                rw [dlen_succ m alo (i - 1) (by omega) (by rw [← hie]; exact hki)]
              omega
          by_cases hji : j < i
          · -- candidate left of the diagonal: dominated, no best update
            have hdom : dlen m alo j ≤ best.Size := h6 j hjalo hji hkj
            rw [if_neg (show ¬(best.Size < j2len ((j : Int) - 1) + 1) from by omega)]
            apply ih j2len _ best (fun x hx => hjs x (List.mem_cons_of_mem j hx))
              hsort'.2 ?_ hold hcap h5 hAB hA1 hA2 h6 ?_ ?_
            · rcases hdiag with hd | hd
              · rcases List.mem_cons.mp hd with hd' | hd'
                · omega
                · exact Or.inl hd'
              · refine Or.inr ⟨hd.1, ?_⟩
                rw [if_neg (show ¬((i : Int) = (j : Int)) from by omega)]
                exact hd.2
            · intro x hx
              by_cases hxj : x = (j : Int)
              · subst hxj
                rw [if_pos rfl]
                exact ⟨j, rfl, hjalo, hkj, hkd⟩
              · rw [if_neg hxj] at hx ⊢
                exact hn3 x hx
            · intro x
              by_cases hxj : x = (j : Int)
              · subst hxj
                rw [if_pos rfl]
                exact hkirow
              · rw [if_neg hxj]
                exact hn4 x
          · by_cases hje : j = i
            · -- the diagonal candidate: entry is exactly dlen i
              subst hje
              have hkeq : j2len ((j : Int) - 1) + 1 = dlen m alo j := by
                refine le_antisymm hkd ?_
                by_cases hia : j ≤ alo
                · have := dlen_le m alo j
                  omega
                · have hie : j = (j - 1) + 1 := by omega
                  have hdi : dlen m alo j = dlen m alo (j - 1) + 1 := by
                    conv_lhs => rw [hie]
                    rw [dlen_succ m alo (j - 1) (by omega) (by rw [← hie]; exact hki)]
                  by_cases hkprev : keepPos m (j - 1)
                  · have h5' := h5 (by omega) hkprev
                    rw [h5']
                    omega
                  · have : dlen m alo (j - 1) = 0 :=
                      dlen_zero_of m alo (j - 1) (fun hcon => hkprev hcon.2)
                    omega
              by_cases hup : best.Size < j2len ((j : Int) - 1) + 1
              · rw [if_pos hup]
                apply ih j2len _ _ (fun x hx => hjs x (List.mem_cons_of_mem j hx))
                  hsort'.2 ?_ hold hcap h5 ?_ ?_ ?_ ?_ ?_ ?_
                · refine Or.inr ⟨?_, ?_⟩
                  · show dlen m alo j ≤ j2len ((j : Int) - 1) + 1
                    omega
                  · rw [if_pos rfl]
                    exact hkeq
                · rfl
                · show alo ≤ j + 1 - (j2len ((j : Int) - 1) + 1)
                  have := dlen_le m alo j
                  omega
                · show j + 1 - (j2len ((j : Int) - 1) + 1) + (j2len ((j : Int) - 1) + 1) ≤ j + 1
                  have hdl := dlen_le m alo j
                  omega
                · intro jj h1 h2 h3
                  have := h6 jj h1 h2 h3
                  show dlen m alo jj ≤ j2len ((j : Int) - 1) + 1
                  omega
                · intro x hx
                  by_cases hxj : x = (j : Int)
                  · subst hxj
                    rw [if_pos rfl]
                    exact ⟨j, rfl, hjalo, hkj, hkd⟩
                  · rw [if_neg hxj] at hx ⊢
                    exact hn3 x hx
                · intro x
                  by_cases hxj : x = (j : Int)
                  · rw [hxj, if_pos rfl]
                    exact hkirow
                  · rw [if_neg hxj]
                    exact hn4 x
              · rw [if_neg hup]
                apply ih j2len _ best (fun x hx => hjs x (List.mem_cons_of_mem j hx))
                  hsort'.2 ?_ hold hcap h5 hAB hA1 hA2 h6 ?_ ?_
                · refine Or.inr ⟨by omega, ?_⟩
                  rw [if_pos rfl]
                  exact hkeq
                · intro x hx
                  by_cases hxj : x = (j : Int)
                  · subst hxj
                    rw [if_pos rfl]
                    exact ⟨j, rfl, hjalo, hkj, hkd⟩
                  · rw [if_neg hxj] at hx ⊢
                    exact hn3 x hx
                · intro x
                  by_cases hxj : x = (j : Int)
                  · rw [hxj, if_pos rfl]
                    exact hkirow
                  · rw [if_neg hxj]
                    exact hn4 x
            · -- candidate right of the diagonal: the diagonal was already
              -- processed, and the new run is column-capped by it
              have hji' : i < j := by omega
              have hdone : dlen m alo i ≤ best.Size ∧ newj2len (i : Int) = dlen m alo i := by
                rcases hdiag with hd | hd
                · rcases List.mem_cons.mp hd with hd' | hd'
                  · omega
                  · have := hsort'.1 i hd'
                    omega
                · exact hd
              rw [if_neg (show ¬(best.Size < j2len ((j : Int) - 1) + 1) from by omega)]
              apply ih j2len _ best (fun x hx => hjs x (List.mem_cons_of_mem j hx))
                hsort'.2 ?_ hold hcap h5 hAB hA1 hA2 h6 ?_ ?_
              · refine Or.inr ⟨hdone.1, ?_⟩
                rw [if_neg (show ¬((i : Int) = (j : Int)) from by omega)]
                exact hdone.2
              · intro x hx
                by_cases hxj : x = (j : Int)
                · subst hxj
                  rw [if_pos rfl]
                  exact ⟨j, rfl, hjalo, hkj, hkd⟩
                · rw [if_neg hxj] at hx ⊢
                  exact hn3 x hx
              · intro x
                by_cases hxj : x = (j : Int)
                · rw [hxj, if_pos rfl]
                  exact hkirow
                · rw [if_neg hxj]
                  exact hn4 x

/-- The full identity scan: starting from a row state satisfying the
invariants, the final best match is diagonal and window-bounded. -/
theorem scanRows_self (m : sequenceMatcher) (hab : m.a = m.b) (alo ahi : Nat)
    (hlen : ahi ≤ m.b.length) :
    ∀ (cnt i : Nat) (j2len : Int → Nat) (best : MatchT),
    alo ≤ i → i + cnt = ahi →
    (∀ x : Int, j2len x ≠ 0 → ∃ jx : Nat, x = (jx : Int) ∧ alo ≤ jx ∧ keepPos m jx ∧
      j2len x ≤ dlen m alo jx) →
    (∀ x : Int, j2len x ≤ rowCap m alo i) →
    (alo < i → keepPos m (i - 1) → j2len ((i : Int) - 1) = dlen m alo (i - 1)) →
    best.A = best.B → alo ≤ best.A → best.A + best.Size ≤ i →
    (∀ jj : Nat, alo ≤ jj → jj < i → keepPos m jj → dlen m alo jj ≤ best.Size) →
    (scanRows m alo ahi i cnt j2len best).A = (scanRows m alo ahi i cnt j2len best).B ∧
    alo ≤ (scanRows m alo ahi i cnt j2len best).A ∧
    (scanRows m alo ahi i cnt j2len best).A +
      (scanRows m alo ahi i cnt j2len best).Size ≤ ahi := by
  intro cnt
  induction cnt with
  | zero =>
      intro i j2len best hlo heq h1 h2 h3 hAB hA1 hA2 h6
      refine ⟨hAB, hA1, ?_⟩
      show best.A + best.Size ≤ ahi
      omega
  | succ cnt ih =>
      intro i j2len best hlo heq h1 h2 h3 hAB hA1 hA2 h6
      simp only [scanRows]
      by_cases hk : keepPos m i
      · have hrow := innerLoop_self m hab alo ahi i hlo (by omega) hlen hk
          (b2j m (m.a.getD i "")) j2len (fun _ => 0) best
          (fun j hj => hj) (b2j_sorted m (m.a.getD i ""))
          (Or.inl (by rw [hab]; exact hk))
          h1 h2 h3 hAB hA1 (by omega) h6
          (fun x hx => absurd rfl hx) (fun x => Nat.zero_le _)
        obtain ⟨rAB, rA1, rA2, r6, r5a, r5b, r3, r4⟩ := hrow
        refine ih (i + 1) _ _ (by omega) (by omega) r3 ?_ ?_ rAB rA1 rA2 ?_
        · intro x
          unfold rowCap
          rw [if_neg (by omega), Nat.add_sub_cancel]
          exact r4 x
        · intro _ _
          have hc : ((i + 1 : Nat) : Int) - 1 = (i : Int) := by push_cast; ring
          rw [hc, Nat.add_sub_cancel]
          exact r5b
        · intro jj hjj1 hjj2 hjj3
          rcases Nat.lt_succ_iff_lt_or_eq.mp hjj2 with h | h
          · exact r6 jj hjj1 h hjj3
          · subst h
            exact r5a
      · have hempty : b2j m (m.a.getD i "") = [] := by
          by_contra hne
          rw [hab] at hne
          exact hk (mem_b2j_of m (m.b.getD i "") i hne (by omega) rfl)
        rw [hempty]
        refine ih (i + 1) (fun _ => 0) best (by omega) (by omega)
          (fun x hx => absurd rfl hx) (fun x => Nat.zero_le _) ?_ hAB hA1 (by omega) ?_
        · intro _ hki
          exact absurd hki hk
        · intro jj hjj1 hjj2 hjj3
          rcases Nat.lt_succ_iff_lt_or_eq.mp hjj2 with h | h
          · exact h6 jj hjj1 h hjj3
          · subst h
            exact absurd hjj3 hk

/-- Auxiliary step for `findLongestMatch_self`: given the (diagonal,
window-bounded) scan result, the four extension loops stretch the match to
the whole window. -/
theorem findLongestMatch_self_aux (m : sequenceMatcher) (hab : m.a = m.b)
    (hjunk : m.IsJunk = none) (alo ahi : Nat)
    (p q s : Nat) (hpq : p = q) (hp : alo ≤ p) (hps : p + s ≤ ahi)
    (hb1 : scanRows m alo ahi alo (ahi - alo) (fun _ => 0) ⟨alo, alo, 0⟩ = ⟨p, q, s⟩) :
    findLongestMatch m alo ahi alo ahi = ⟨alo, alo, ahi - alo⟩ := by
  subst hpq
  unfold findLongestMatch
  rw [hb1]
  simp only [extendNonJunkBack_self m hab hjunk alo p s hp]
  simp only [extendNonJunkFwd_self m hab hjunk alo ahi
    (ahi - (alo + (s + (p - alo)))) (s + (p - alo)) (by omega)]
  simp only [extendJunkBack_self m alo (ahi - alo)]
  have hf0 : ahi - (alo + (ahi - alo)) = 0 := by omega
  rw [hf0]
  rfl

/-- On identical sequences with no junk predicate, `findLongestMatch` over
the window `[alo,ahi)×[alo,ahi)` returns the whole diagonal window (the
boundary-extension loops stretch any scan result to the full window). -/
theorem findLongestMatch_self (m : sequenceMatcher) (hab : m.a = m.b)
    (hjunk : m.IsJunk = none) (alo ahi : Nat) (h1 : alo ≤ ahi)
    (h2 : ahi ≤ m.b.length) :
    findLongestMatch m alo ahi alo ahi = ⟨alo, alo, ahi - alo⟩ := by
  have hscan := scanRows_self m hab alo ahi h2 (ahi - alo) alo (fun _ => 0)
    ⟨alo, alo, 0⟩ (Nat.le_refl alo) (by omega) (fun x hx => absurd rfl hx)
    (fun x => Nat.zero_le _) (fun hlt _ => absurd hlt (by omega)) rfl
    (Nat.le_refl alo) (Nat.le_refl alo)
    (fun jj hj1 hj2 _ => absurd hj2 (by omega))
  obtain ⟨sAB, sA1, sA2⟩ := hscan
  exact findLongestMatch_self_aux m hab hjunk alo ahi _ _ _ sAB sA1 sA2 rfl

/-- On identical line lists the single recursive step of `matchBlocks`
already finds the whole diagonal, so the result is one full-length block. -/
theorem matchBlocks_self (L : List String) (hn : 0 < L.length) :
    matchBlocksF (newMatcher L L) (L.length + L.length + 1) 0 L.length 0 L.length []
      = some [⟨0, 0, L.length⟩] := by
  have hflm : findLongestMatch (newMatcher L L) 0 L.length 0 L.length =
      ⟨0, 0, L.length⟩ :=
    findLongestMatch_self (newMatcher L L) rfl rfl 0 L.length (Nat.zero_le _)
      (Nat.le_refl _)
  rw [matchBlocksF_succ, hflm]
  rw [if_pos (show (0 : Nat) < (⟨0, 0, L.length⟩ : MatchT).Size from hn)]
  rw [if_neg (show ¬((0 : Nat) < (⟨0, 0, L.length⟩ : MatchT).A ∧
      (0 : Nat) < (⟨0, 0, L.length⟩ : MatchT).B) from
      fun h => absurd (h.1 : (0 : Nat) < 0) (lt_irrefl 0))]
  show (if 0 + L.length < L.length ∧ 0 + L.length < L.length then
      matchBlocksF (newMatcher L L) (L.length + L.length) (0 + L.length) L.length
        (0 + L.length) L.length ([] ++ [⟨0, 0, L.length⟩])
    else some ([] ++ [⟨0, 0, L.length⟩])) = some [⟨0, 0, L.length⟩]
  rw [if_neg (show ¬(0 + L.length < L.length ∧ 0 + L.length < L.length) from
      by omega)]
  rfl

/-- On identical nonempty line lists, `getMatchingBlocks` is the full
diagonal block followed by the sentinel. -/
theorem getMatchingBlocks_self (L : List String) (hn : 0 < L.length) :
    getMatchingBlocks (newMatcher L L) =
      [⟨0, 0, L.length⟩, ⟨L.length, L.length, 0⟩] := by
  unfold getMatchingBlocks
  show collapseLoop ((matchBlocksF (newMatcher L L) (L.length + L.length + 1) 0
      L.length 0 L.length []).getD []) ⟨0, 0, 0⟩ ++ [⟨L.length, L.length, 0⟩] =
    [⟨0, 0, L.length⟩, ⟨L.length, L.length, 0⟩]
  rw [matchBlocks_self L hn]
  show (if 0 < 0 + L.length then [(⟨0, 0, 0 + L.length⟩ : MatchT)] else []) ++
      [⟨L.length, L.length, 0⟩] = [⟨0, 0, L.length⟩, ⟨L.length, L.length, 0⟩]
  rw [Nat.zero_add, if_pos hn]
  rfl

/-- Opcode generation for the identity blocks: a single `Equal` opcode. -/
theorem opLoop_identity (n : Nat) (hn : 0 < n) :
    opLoop [⟨0, 0, n⟩, ⟨n, n, 0⟩] 0 0 = [⟨opEqual, 0, n, 0, n⟩] := by
  simp only [opLoop, Nat.zero_add, lt_self_iff_false, false_and, and_false,
    if_false, if_pos hn, List.append_nil, List.nil_append]

/-- Rendering the identity pipeline at the list level: one Shared line per
input line, with equal line numbers. -/
theorem renderIdentity (L : List String) (hn : 0 < L.length) :
    ((opLoop (getMatchingBlocks (newMatcher L L)) 0 0).map (processOp L L)).flatten =
      (List.range' 0 L.length).map (fun i =>
        { OldNumber := i + 1, NewNumber := i + 1, Line := L.getD i "",
          Kind := DiffShared }) := by
  rw [getMatchingBlocks_self L hn, opLoop_identity L.length hn]
  simp only [List.map_cons, List.map_nil, List.flatten_cons, List.flatten_nil,
    List.append_nil]
  rw [processOp_equal]
  rfl

/-- Closed form of `Histogram(s, s)`: the Shared rendering of the lines of
`s`, with equal 1-based line numbers on both sides. -/
theorem histogram_self (s : String) :
    Histogram s s = (List.range' 0 (splitLines s).length).map (fun i =>
      { OldNumber := i + 1, NewNumber := i + 1,
        Line := (splitLines s).getD i "", Kind := DiffShared }) := by
  by_cases h0 : splitLines s = []
  · show ((opLoop (getMatchingBlocks (newMatcher (splitLines s) (splitLines s))) 0
        0).map (processOp (splitLines s) (splitLines s))).flatten =
      (List.range' 0 (splitLines s).length).map (fun i =>
        { OldNumber := i + 1, NewNumber := i + 1,
          Line := (splitLines s).getD i "", Kind := DiffShared })
    rw [h0]
    rfl
  · exact renderIdentity (splitLines s) (List.length_pos.mpr h0)

/-- C2: for every string `s`, `Histogram(s, s)` returns a list containing
only Shared entries, every entry has `OldNumber` equal to `NewNumber`, and
the number of entries equals the number of lines of `s`. -/
theorem C2_identity (s : String) :
    (∀ d ∈ Histogram s s, d.Kind = DiffShared ∧ d.OldNumber = d.NewNumber) ∧
    (Histogram s s).length = (splitLines s).length := by
  constructor
  · intro d hd
    rw [histogram_self] at hd
    obtain ⟨i, _, hdi⟩ := List.mem_map.mp hd
    rw [← hdi]
    exact ⟨rfl, rfl⟩
  · rw [histogram_self, List.length_map, List.length_range']

/-- Witness for C2 at the concrete input `"a\nb"`. -/
theorem C2_identity_witness :
    (∀ d ∈ Histogram "a\nb" "a\nb", d.Kind = DiffShared ∧
      d.OldNumber = d.NewNumber) ∧
    (Histogram "a\nb" "a\nb").length = (splitLines "a\nb").length :=
  C2_identity "a\nb"

/-- C10: a single trailing line feed is invisible: for nonempty `s` not
ending in a line feed, `splitLines` sends `s` and `s ++ "\n"` to the same
line list, and `Histogram(s, s ++ "\n")` consists of Shared entries only. -/
theorem C10_trailing_newline (s : String) (h1 : s ≠ "")
    (h2 : s.data.getLast? ≠ some '\n') :
    splitLines (s ++ "\n") = splitLines s ∧
    ∀ d ∈ Histogram s (s ++ "\n"), d.Kind = DiffShared := by
  have hsp : splitLines (s ++ "\n") = splitLines s :=
    splitLines_append_newline s h1 h2
  refine ⟨hsp, ?_⟩
  intro d hd
  have hH : Histogram s (s ++ "\n") = Histogram s s := by
    show ((opLoop (getMatchingBlocks (newMatcher (splitLines s)
        (splitLines (s ++ "\n")))) 0 0).map
        (processOp (splitLines s) (splitLines (s ++ "\n")))).flatten =
      Histogram s s
    rw [hsp]
    rfl
  rw [hH, histogram_self] at hd
  obtain ⟨i, _, hdi⟩ := List.mem_map.mp hd
  rw [← hdi]

/-- Witness for C10 at the concrete input `"a"`. -/
theorem C10_trailing_newline_witness :
    ("a" : String) ≠ "" ∧ ("a" : String).data.getLast? ≠ some '\n' ∧
    (splitLines ("a" ++ "\n") = splitLines "a" ∧
      ∀ d ∈ Histogram "a" ("a" ++ "\n"), d.Kind = DiffShared) :=
  ⟨by decide, by decide, C10_trailing_newline "a" (by decide) (by decide)⟩

/-- Rows scanned against an empty `b` never change the best match: every
candidate list is empty. -/
theorem scanRows_bnil (m : sequenceMatcher) (hb : m.b = []) (blo bhi : Nat) :
    ∀ (cnt i : Nat) (j2len : Int → Nat) (best : MatchT),
    scanRows m blo bhi i cnt j2len best = best := by
  intro cnt
  induction cnt with
  | zero =>
      intro i j2len best
      rfl
  | succ cnt ih =>
      intro i j2len best
      simp only [scanRows]
      have hempty : b2j m (m.a.getD i "") = [] := by
        unfold b2j
        split
        · rfl
        · unfold b2jAfterJunk
          split
          · rfl
          · unfold b2jRaw
            rw [hb]
            rfl
      rw [hempty]
      exact ih (i + 1) (fun _ => 0) best

/-- Forward non-junk extension is the identity when the loop guard fails on
entry. -/
theorem extendNonJunkFwd_guard_false (m : sequenceMatcher)
    (ahi bhi besti bestj fuel bestsize : Nat)
    (h : ¬(besti + bestsize < ahi ∧ bestj + bestsize < bhi)) :
    extendNonJunkFwd m ahi bhi besti bestj fuel bestsize = bestsize := by
  cases fuel with
  | zero => rfl
  | succ f =>
      simp only [extendNonJunkFwd]
      rw [if_neg (fun hc => h ⟨hc.1, hc.2.1⟩)]

/-- Forward junk extension is the identity when the loop guard fails on
entry. -/
theorem extendJunkFwd_guard_false (m : sequenceMatcher)
    (ahi bhi besti bestj fuel bestsize : Nat)
    (h : ¬(besti + bestsize < ahi ∧ bestj + bestsize < bhi)) :
    extendJunkFwd m ahi bhi besti bestj fuel bestsize = bestsize := by
  cases fuel with
  | zero => rfl
  | succ f =>
      simp only [extendJunkFwd]
      rw [if_neg (fun hc => h ⟨hc.1, hc.2.1⟩)]

/-- With an empty `b`, `findLongestMatch` over `[0,ahi)×[0,0)` finds
nothing. -/
theorem findLongestMatch_bnil (m : sequenceMatcher) (hb : m.b = []) (ahi : Nat) :
    findLongestMatch m 0 ahi 0 0 = ⟨0, 0, 0⟩ := by
  unfold findLongestMatch
  rw [scanRows_bnil m hb 0 0 (ahi - 0) 0 (fun _ => 0) ⟨0, 0, 0⟩]
  show (⟨0, 0, extendJunkFwd m ahi 0 0 0
      (ahi - (0 + extendNonJunkFwd m ahi 0 0 0 (ahi - (0 + 0)) 0))
      (extendNonJunkFwd m ahi 0 0 0 (ahi - (0 + 0)) 0)⟩ : MatchT) = ⟨0, 0, 0⟩
  rw [extendNonJunkFwd_guard_false m ahi 0 0 0 (ahi - (0 + 0)) 0
    (fun hc => absurd hc.2 (by omega))]
  rw [extendJunkFwd_guard_false m ahi 0 0 0 (ahi - (0 + 0)) 0
    (fun hc => absurd hc.2 (by omega))]

/-- Opcode generation when only the new side is populated: a single
`Insert` opcode. -/
theorem opLoop_insert_only (n : Nat) (hn : 0 < n) :
    opLoop [⟨0, n, 0⟩] 0 0 = [⟨opInsert, 0, 0, 0, n⟩] := by
  simp only [opLoop, lt_self_iff_false, false_and, and_false, true_and, if_false,
    hn, if_true, opInsert, Nat.zero_lt_one, List.append_nil, List.nil_append]

/-- Opcode generation when only the old side is populated: a single
`Delete` opcode. -/
theorem opLoop_delete_only (n : Nat) (hn : 0 < n) :
    opLoop [⟨n, 0, 0⟩] 0 0 = [⟨opDelete, 0, n, 0, 0⟩] := by
  simp only [opLoop, lt_self_iff_false, false_and, and_false, true_and, if_false,
    hn, if_true, opDelete, Nat.zero_lt_two, List.append_nil, List.nil_append]

/-- Rendering of the pipeline with an empty old side: one Added line per
new line. -/
theorem renderEmptyOld (L : List String) (hn : 0 < L.length) :
    ((opLoop (getMatchingBlocks (newMatcher [] L)) 0 0).map (processOp [] L)).flatten =
      (List.range' 0 L.length).map (fun j =>
        { OldNumber := 0, NewNumber := j + 1, Line := L.getD j "",
          Kind := DiffNew }) := by
  have hblocks : getMatchingBlocks (newMatcher ([] : List String) L) =
      [⟨0, L.length, 0⟩] := rfl
  rw [hblocks, opLoop_insert_only L.length hn]
  simp only [List.map_cons, List.map_nil, List.flatten_cons, List.flatten_nil,
    List.append_nil]
  rw [processOp_insert]
  rfl

/-- Rendering of the pipeline with an empty new side: one Deleted line per
old line. -/
theorem renderEmptyNew (L : List String) (hn : 0 < L.length) :
    ((opLoop (getMatchingBlocks (newMatcher L [])) 0 0).map (processOp L [])).flatten =
      (List.range' 0 L.length).map (fun i =>
        { OldNumber := i + 1, NewNumber := 0, Line := L.getD i "",
          Kind := DiffOld }) := by
  have hblocks : getMatchingBlocks (newMatcher L ([] : List String)) =
      [⟨L.length, 0, 0⟩] := by
    unfold getMatchingBlocks
    show collapseLoop ((matchBlocksF (newMatcher L []) (L.length + 0 + 1) 0
        L.length 0 0 []).getD []) ⟨0, 0, 0⟩ ++ [⟨L.length, 0, 0⟩] =
      [⟨L.length, 0, 0⟩]
    rw [matchBlocksF_succ, findLongestMatch_bnil (newMatcher L []) rfl L.length]
    rfl
  rw [hblocks, opLoop_delete_only L.length hn]
  simp only [List.map_cons, List.map_nil, List.flatten_cons, List.flatten_nil,
    List.append_nil]
  rw [processOp_delete]
  rfl

/-- Closed form of `Histogram("", s)` for nonempty `s`: all lines Added. -/
theorem histogram_empty_old (s : String) (h0 : s ≠ "") :
    Histogram "" s = (List.range' 0 (splitLines s).length).map (fun j =>
      { OldNumber := 0, NewNumber := j + 1, Line := (splitLines s).getD j "",
        Kind := DiffNew }) :=
  renderEmptyOld (splitLines s) (List.length_pos.mpr (splitLines_ne_nil s h0))

/-- Closed form of `Histogram(s, "")` for nonempty `s`: all lines
Deleted. -/
theorem histogram_empty_new (s : String) (h0 : s ≠ "") :
    Histogram s "" = (List.range' 0 (splitLines s).length).map (fun i =>
      { OldNumber := i + 1, NewNumber := 0, Line := (splitLines s).getD i "",
        Kind := DiffOld }) :=
  renderEmptyNew (splitLines s) (List.length_pos.mpr (splitLines_ne_nil s h0))

/-- C6: `Histogram("", "")` is empty, and for nonempty `s`,
`Histogram("", s)` is all Added (one entry per line of `s`, hence zero
Shared) while `Histogram(s, "")` is all Deleted (one entry per line of
`s`). -/
theorem C6_empty_inputs :
    Histogram "" "" = [] ∧
    ∀ s : String, s ≠ "" →
      (∀ d ∈ Histogram "" s, d.Kind = DiffNew) ∧
      (Histogram "" s).length = (splitLines s).length ∧
      (∀ d ∈ Histogram s "", d.Kind = DiffOld) ∧
      (Histogram s "").length = (splitLines s).length := by
  refine ⟨rfl, ?_⟩
  intro s hs
  refine ⟨?_, ?_, ?_, ?_⟩
  · intro d hd
    rw [histogram_empty_old s hs] at hd
    obtain ⟨j, _, hdj⟩ := List.mem_map.mp hd
    rw [← hdj]
  · rw [histogram_empty_old s hs, List.length_map, List.length_range']
  · intro d hd
    rw [histogram_empty_new s hs] at hd
    obtain ⟨i, _, hdi⟩ := List.mem_map.mp hd
    rw [← hdi]
  · rw [histogram_empty_new s hs, List.length_map, List.length_range']

/-- Witness for C6 at the concrete nonempty input `"a"`. -/
theorem C6_empty_inputs_witness :
    Histogram "" "" = [] ∧ (("a" : String) ≠ "") ∧
    (∀ d ∈ Histogram "" "a", d.Kind = DiffNew) ∧
    (Histogram "" "a").length = (splitLines "a").length ∧
    (∀ d ∈ Histogram "a" "", d.Kind = DiffOld) ∧
    (Histogram "a" "").length = (splitLines "a").length := by
  have h2 := C6_empty_inputs.2 "a" (by decide)
  exact ⟨C6_empty_inputs.1, by decide, h2.1, h2.2.1, h2.2.2.1, h2.2.2.2⟩

end diff

end Shutter







